import Mathlib

/-!
Shallow embedding of the `stack` orchestrator (Rust sources: `config.rs`,
`exec.rs`, `commands.rs`, `program.rs`).

Modelling conventions:
* `BTreeMap<String, Stack>` is modelled as an association list
  `List (String × Stack)`; the BTreeMap invariant (keys strictly ascending)
  is carried as a hypothesis where a theorem needs it.
* `BTreeSet<String>` is modelled as a strictly ascending `List String`
  maintained by `insertSorted`.
* `HashSet<String>` (insertion only, membership queries) is modelled as a
  `List String` with cons-insertion, or as a `Finset String` for the
  cycle checker's marker set.
* `HashMap<String, String>` (environments) is modelled as a
  `List (String × String)` with replace-on-insert semantics.
* `PathBuf` is modelled as a `List String` of path components; `Path::join`
  with a relative component appends it.
* Recursive Rust functions whose termination depends on the data (the DFS
  cycle check, the closure expansion, the placement loop) take an explicit
  fuel argument; the fuel passed by the callers is proved sufficient under
  the hypotheses of the theorems.
* Panicking accesses (`unwrap` on keys known to be present) are modelled by
  total lookups returning a default value; the theorems' hypotheses ensure
  the default is never consulted.
-/

/-- One stack entry, mirroring `struct Stack` in `config.rs`. -/
structure Stack where
  key : String
  name : String
  directory : Option String
  file : Option (List String)
  dependencies : List String
  dependants : List String
  environment : List (String × String)
deriving DecidableEq, Repr

instance : Inhabited Stack := ⟨⟨"", "", none, none, [], [], []⟩⟩

/-- Top-level configuration, mirroring `struct Config` in `config.rs`.
The Rust field `stacks` is named `stacksMap` here because `stacks` is a
reserved token in this Lean environment. -/
structure Config where
  base_dir : List String
  command : List String
  stacksMap : List (String × Stack)
  environment : List (String × String)
deriving Repr

/-- Association-list lookup (`BTreeMap::get`). -/
def lookupStack : List (String × Stack) → String → Option Stack
  | [], _ => none
  | p :: rest, k => if p.1 = k then some p.2 else lookupStack rest k

/-- Lookup with panic modelled as a default value (`BTreeMap::get(..).unwrap()`). -/
def getStack (m : List (String × Stack)) (k : String) : Stack :=
  (lookupStack m k).getD default

/-- Key membership test (`BTreeMap::contains_key`). -/
def containsKey (m : List (String × Stack)) (k : String) : Bool :=
  match m with
  | [] => false
  | p :: rest => if p.1 = k then true else containsKey rest k

/-- Apply a function to the entry stored under a key (`get_mut` + mutation). -/
def updateStack (m : List (String × Stack)) (k : String) (f : Stack → Stack) :
    List (String × Stack) :=
  m.map (fun p => if p.1 = k then (p.1, f p.2) else p)

/-- Ordered-set insertion for `BTreeSet<String>`. The comparison is written
on `String.data` (definitionally the same as `<` on `String`) so that it
evaluates on concrete inputs. -/
def insertSorted (x : String) : List String → List String
  | [] => [x]
  | y :: ys =>
    if x.data < y.data then x :: y :: ys
    else if x = y then y :: ys
    else y :: insertSorted x ys

/-- Resolved working directory of a stack: `Stack::directory` in `config.rs`
(the `directory` override joined to the base, else `base/key`). -/
def Stack.resolved_directory (s : Stack) (base : List String) : List String :=
  match s.directory with
  | some dir => base ++ [dir]
  | none => base ++ [s.key]

/-- Insert-or-replace for `HashMap<String, String>`. -/
def hashInsert (m : List (String × String)) (k v : String) : List (String × String) :=
  (m.filter (fun p => decide (p.1 ≠ k))) ++ [(k, v)]

/-- `HashMap::extend`: later entries replace earlier ones on key collision. -/
def hashExtend (m adds : List (String × String)) : List (String × String) :=
  adds.foldl (fun acc p => hashInsert acc p.1 p.2) m

/-- `struct ExecOptions` from `exec.rs`. -/
structure ExecOptions where
  binary : List String
  global_args : List String
  command : String
  args : List String
  environment : List (String × String)
  working_dir : List String
deriving DecidableEq, Repr

/-- `ExecOptions::new` from `exec.rs`: everything not listed comes from
`..Default::default()`, i.e. is empty. -/
def ExecOptions.new (config : Config) (command : String) (args : List String) :
    ExecOptions :=
  { binary := config.command
    command := command
    working_dir := config.base_dir
    args := args
    global_args := []
    environment := [] }

/-- `ExecOptions::with_stack` from `exec.rs`. -/
def ExecOptions.with_stack (o : ExecOptions) (stack : Stack) : ExecOptions :=
  { o with
    global_args := o.global_args ++ ["-p", stack.name]
    working_dir := stack.resolved_directory o.working_dir
    environment := hashExtend o.environment stack.environment }

/-- `ExecOptions::program` from `exec.rs` (`self.binary.get(0).unwrap()`;
the panic on an empty template is modelled by `Option`). -/
def ExecOptions.program (o : ExecOptions) : Option String :=
  o.binary.head?

/-- `ExecOptions::args` from `exec.rs` (named `full_args` here because the
structure already has an `args` field, as the Rust struct does). -/
def ExecOptions.full_args (o : ExecOptions) : List String :=
  (o.binary.drop 1 ++ o.global_args) ++ [o.command] ++ o.args

/-- C9: per-stack invocation composition. For every configuration, verb,
trailing args and stack: the program is the first token of the command
template; the argument list is the remaining template tokens, then the
per-stack flags `-p <name>`, then the verb, then the trailing arguments; and
the working directory is the stack's directory override joined to `base_dir`,
or `base_dir/key` when the override is absent. -/
theorem exec_options_invocation (config : Config) (stack : Stack)
    (verb : String) (args : List String) :
    let o := (ExecOptions.new config verb args).with_stack stack
    o.program = config.command.head? ∧
    o.full_args = config.command.drop 1 ++ ["-p", stack.name] ++ verb :: args ∧
    o.working_dir = stack.resolved_directory config.base_dir ∧
    stack.resolved_directory config.base_dir =
      (match stack.directory with
       | some dir => config.base_dir ++ [dir]
       | none => config.base_dir ++ [stack.key]) := by
  refine ⟨rfl, ?_, rfl, rfl⟩
  simp [ExecOptions.full_args, ExecOptions.with_stack, ExecOptions.new]

/-- Concrete configuration exhibiting the ignored top-level environment. -/
def cfgEnvDemo : Config :=
  { base_dir := ["base"]
    command := ["docker", "compose"]
    stacksMap := []
    environment := [("A", "1")] }

/-- Concrete stack with an empty per-stack environment. -/
def stackEnvDemo : Stack :=
  { key := "foo", name := "foo", directory := none, file := none
    dependencies := [], dependants := [], environment := [] }

/-- C2: the code drops the Configuration's `environment`. `ExecOptions::new`
initialises the environment from `Default::default()` (empty) instead of
`config.environment`, so with the configuration's environment set to
`[("A", "1")]` and an empty stack environment, the per-stack execution
options carry an empty environment rather than the merged one the spec
requires. -/
theorem exec_env_drops_config_environment :
    cfgEnvDemo.environment = [("A", "1")] ∧
    ((ExecOptions.new cfgEnvDemo "up" []).with_stack stackEnvDemo).environment
      = [] := by
  constructor <;> rfl

/-- Stacking of environments actually performed by the code: the base of the
merge is always the empty map, never `config.environment`. -/
theorem exec_env_is_stack_only (config : Config) (verb : String)
    (args : List String) (stack : Stack) :
    ((ExecOptions.new config verb args).with_stack stack).environment
      = hashExtend [] stack.environment := rfl

/-! ### Selection and single-stack constraint (`config.rs`) -/

/-- Error message for an unknown requested stack name. -/
def unknownStackMsg (k : String) : String := "unknown stack \"" ++ k ++ "\""

/-- Loop body of `Config::stack_keys`: validate each requested name and
collect it into an ordered set; after the loop an empty set means all keys. -/
def stack_keys_go (m : List (String × Stack)) :
    List String → List String → Except String (List String)
  | [], keys => if keys.isEmpty then .ok (m.map Prod.fst) else .ok keys
  | k :: rest, keys =>
    if containsKey m k then stack_keys_go m rest (insertSorted k keys)
    else .error (unknownStackMsg k)

/-- `Config::stack_keys` from `config.rs`. -/
def stack_keys (m : List (String × Stack)) (list : List String) :
    Except String (List String) :=
  stack_keys_go m list []

/-- `Config::stacks_from_known_keys` from `config.rs`. -/
def stacks_from_known_keys (m : List (String × Stack)) (keys : List String) :
    List Stack :=
  keys.map (getStack m)

/-- `Config::stacks` from `config.rs` (no-closure selection; named
`config_stacks` because `stacks` is a reserved token here). -/
def config_stacks (m : List (String × Stack)) (list : List String) :
    Except String (List Stack) :=
  match stack_keys m list with
  | .error e => .error e
  | .ok keys => .ok (stacks_from_known_keys m keys)

/-- Error message of `Config::stack` for a resolved count different from one. -/
def stackCountMsg (n : Nat) : String :=
  "Only one stack can be used but " ++ toString n ++ " were provided."

/-- `Config::stack` from `config.rs` (single-stack constraint). -/
def config_stack (m : List (String × Stack)) (list : List String) :
    Except String (List Stack) :=
  match config_stacks m list with
  | .error e => .error e
  | .ok stks =>
    if stks.length ≠ 1 then .error (stackCountMsg stks.length) else .ok stks

/-- C8: single-stack commands. Whenever the no-closure selection resolves,
a resolved count different from one makes `Config::stack` fail with the
message reporting that exact count, and a resolved count of exactly one
makes it succeed with that stack. -/
theorem config_stack_single_constraint (m : List (String × Stack))
    (list : List String) (resolved : List Stack)
    (h : config_stacks m list = .ok resolved) :
    (resolved.length ≠ 1 →
      config_stack m list = .error (stackCountMsg resolved.length)) ∧
    (resolved.length = 1 → config_stack m list = .ok resolved) := by
  unfold config_stack
  rw [h]
  constructor <;> intro h1 <;> simp [h1]

/-- Sample two-stack configuration map used by concrete witnesses. -/
def mapTwoDemo : List (String × Stack) :=
  [("bar", { key := "bar", name := "bar", directory := none, file := none,
             dependencies := [], dependants := [], environment := [] }),
   ("foo", { key := "foo", name := "foo", directory := none, file := none,
             dependencies := [], dependants := [], environment := [] })]

/-- Witness for C8: on a two-stack configuration the empty selection resolves
to two stacks, so the single-stack query fails naming the count 2, while a
one-name selection succeeds. -/
theorem config_stack_single_constraint_witness :
    config_stack mapTwoDemo [] =
      .error "Only one stack can be used but 2 were provided." ∧
    config_stack mapTwoDemo ["foo"] = .ok [getStack mapTwoDemo "foo"] := by
  constructor
  · exact (config_stack_single_constraint mapTwoDemo []
      (stacks_from_known_keys mapTwoDemo ["bar", "foo"]) rfl).1 (by decide)
  · exact (config_stack_single_constraint mapTwoDemo ["foo"]
      (stacks_from_known_keys mapTwoDemo ["foo"]) rfl).2 rfl

/-! ### Dispatch with fail-fast semantics (`commands.rs`) -/

/-- Outcome reported by the process-spawn collaborator for one invocation:
either the spawn (or wait) itself failed with an OS error message, or the
child ran to completion with an exit code. -/
inductive SpawnOutcome where
  | failed (msg : String)
  | exited (code : Nat)
deriving DecidableEq, Repr

/-- Rendering of `std::process::ExitStatus` for a normal exit. -/
def statusDisplay (code : Nat) : String :=
  "exit status: " ++ toString code

/-- Error string built by `exec` in `commands.rs` for a non-zero exit. -/
def exitErrorMsg (o : ExecOptions) (code : Nat) : String :=
  "Error running command `" ++ (o.program).getD "" ++ " " ++
    String.intercalate " " o.full_args ++ "`: " ++ statusDisplay code

/-- Error string built by `exec` in `commands.rs` when spawning (or waiting
on) the child fails. -/
def spawnErrorMsg (msg : String) : String :=
  "Error running docker compose: " ++ msg

/-- `exec` from `commands.rs`, with process spawning abstracted into the
`runner` collaborator. -/
def exec (runner : ExecOptions → SpawnOutcome) (exec_options : ExecOptions)
    (stack : Stack) : Except String Unit :=
  let o := exec_options.with_stack stack
  match runner o with
  | .failed msg => .error (spawnErrorMsg msg)
  | .exited code =>
    if code = 0 then .ok () else .error (exitErrorMsg o code)

/-- The `for stack in stacks { exec(&exec_options, stack)?; }` loop shared by
the dispatch functions of `commands.rs`, instrumented with the list of stacks
actually handed to `exec` (first component) next to the Rust return value
(second component). -/
def run_stacks (runner : ExecOptions → SpawnOutcome) (exec_options : ExecOptions) :
    List Stack → List Stack × Except String Unit
  | [] => ([], .ok ())
  | stack :: rest =>
    match exec runner exec_options stack with
    | .ok _ =>
      let r := run_stacks runner exec_options rest
      (stack :: r.1, r.2)
    | .error e => ([stack], .error e)

theorem run_stacks_ok_of_all_ok (runner : ExecOptions → SpawnOutcome)
    (opts : ExecOptions) (stks : List Stack)
    (h : ∀ s ∈ stks, exec runner opts s = .ok ()) :
    run_stacks runner opts stks = (stks, .ok ()) := by
  induction stks with
  | nil => rfl
  | cons s rest ih =>
    have hs : exec runner opts s = .ok () := h s (List.mem_cons_self s rest)
    simp [run_stacks, hs, ih (fun t ht => h t (List.mem_cons_of_mem s ht))]

theorem run_stacks_first_error (runner : ExecOptions → SpawnOutcome)
    (opts : ExecOptions) (pre : List Stack) (s : Stack) (suf : List Stack)
    (e : String) (hpre : ∀ t ∈ pre, exec runner opts t = .ok ())
    (hs : exec runner opts s = .error e) :
    run_stacks runner opts (pre ++ s :: suf) = (pre ++ [s], .error e) := by
  induction pre with
  | nil => simp [run_stacks, hs]
  | cons t rest ih =>
    have ht : exec runner opts t = .ok () := hpre t (List.mem_cons_self t rest)
    simp only [List.cons_append, run_stacks, ht, List.append_eq]
    rw [ih (fun u hu => hpre u (List.mem_cons_of_mem t hu))]

theorem run_stacks_ok_iff (runner : ExecOptions → SpawnOutcome)
    (opts : ExecOptions) (stks : List Stack) :
    (run_stacks runner opts stks).2 = .ok () ↔
      ∀ s ∈ stks, exec runner opts s = .ok () := by
  constructor
  · intro h
    induction stks with
    | nil => intro s hs; cases hs
    | cons t rest ih =>
      intro s hs
      cases hex : exec runner opts t with
      | ok u =>
        cases u
        rcases List.mem_cons.mp hs with rfl | hmem
        · exact hex
        · exact ih (by simpa [run_stacks, hex] using h) s hmem
      | error e₀ => simp [run_stacks, hex] at h
  · intro h
    rw [run_stacks_ok_of_all_ok runner opts stks h]

/-- C3 (amended): fail-fast dispatch. Success of the dispatch is equivalent
to every stack's process exiting with status zero; on the first failure the
stacks invoked are exactly the already-processed prefix plus the failing
stack, each exactly once and in order — no later stack is invoked and no
earlier stack is re-run — and the returned error is the failing `exec`'s
error. A non-zero exit produces the message naming the command, its
arguments and the exit status; a spawn failure produces only the fixed
prefix `Error running docker compose:` followed by the OS error message. -/
theorem run_stacks_fail_fast (runner : ExecOptions → SpawnOutcome)
    (opts : ExecOptions) (stks : List Stack) :
    ((run_stacks runner opts stks).2 = .ok () ↔
      ∀ s ∈ stks, exec runner opts s = .ok ()) ∧
    ((∀ s ∈ stks, exec runner opts s = .ok ()) →
      run_stacks runner opts stks = (stks, .ok ())) ∧
    (∀ pre s suf e, stks = pre ++ s :: suf →
      (∀ t ∈ pre, exec runner opts t = .ok ()) →
      exec runner opts s = .error e →
      run_stacks runner opts stks = (pre ++ [s], .error e)) ∧
    (∀ s msg, runner (opts.with_stack s) = .failed msg →
      exec runner opts s = .error (spawnErrorMsg msg)) ∧
    (∀ s code, runner (opts.with_stack s) = .exited code → code ≠ 0 →
      exec runner opts s = .error (exitErrorMsg (opts.with_stack s) code)) := by
  refine ⟨run_stacks_ok_iff runner opts stks,
    run_stacks_ok_of_all_ok runner opts stks, ?_, ?_, ?_⟩
  · intro pre s suf e hsplit hpre hs
    subst hsplit
    exact run_stacks_first_error runner opts pre s suf e hpre hs
  · intro s msg hr
    simp [exec, hr]
  · intro s code hr hc
    simp [exec, hr, hc]

/-- Leading-match test on character lists (helper for the substring check). -/
def leadsWith : List Char → List Char → Bool
  | [], _ => true
  | _ :: _, [] => false
  | a :: as, b :: bs => a == b && leadsWith as bs

/-- Substring occurrence on character lists. -/
def hasSub (needle : List Char) : List Char → Bool
  | [] => leadsWith needle []
  | c :: rest => leadsWith needle (c :: rest) || hasSub needle rest

/-- Formalisation of the claim's phrase "the returned error identifies …":
the message mentions a token when the token occurs in it as a substring. -/
def strMentions (msg token : String) : Bool :=
  hasSub token.data msg.data

/-- Three-stack demo set for the dispatch scenarios. -/
def stackAlphaDemo : Stack :=
  { key := "alpha", name := "alpha", directory := none, file := none,
    dependencies := [], dependants := [], environment := [] }

/-- Second demo stack. -/
def stackBetaDemo : Stack :=
  { key := "beta", name := "beta", directory := none, file := none,
    dependencies := [], dependants := [], environment := [] }

/-- Third demo stack. -/
def stackGammaDemo : Stack :=
  { key := "gamma", name := "gamma", directory := none, file := none,
    dependencies := [], dependants := [], environment := [] }

/-- Demo configuration for the dispatch scenarios. -/
def cfgDispatchDemo : Config :=
  { base_dir := []
    command := ["docker", "compose"]
    stacksMap := [("alpha", stackAlphaDemo), ("beta", stackBetaDemo),
                  ("gamma", stackGammaDemo)]
    environment := [] }

/-- Collaborator whose spawn always fails with the OS message `oops`. -/
def runnerSpawnFailDemo : ExecOptions → SpawnOutcome := fun _ => .failed "oops"

/-- C3 as stated fails: dispatching `up -d` over one stack with a spawn
failure returns the error `Error running docker compose: oops`, which does
not mention the argument `-d` (nor the verb `up`): the spawn-failure error
identifies neither the command nor its arguments, only the spawn detail. -/
theorem run_stacks_spawn_error_hides_args :
    run_stacks runnerSpawnFailDemo (ExecOptions.new cfgDispatchDemo "up" ["-d"])
        [stackAlphaDemo] =
      ([stackAlphaDemo], .error "Error running docker compose: oops") ∧
    strMentions "Error running docker compose: oops" "-d" = false ∧
    strMentions "Error running docker compose: oops" "up" = false := by
  refine ⟨rfl, ?_, ?_⟩ <;> decide

/-- Collaborator for spec scenario D: the stack whose working directory is
`beta` exits with status 1, all others exit 0. -/
def runnerBetaFailsDemo : ExecOptions → SpawnOutcome :=
  fun o => if o.working_dir = ["beta"] then .exited 1 else .exited 0

/-- Witness for C3 (amended), spec scenario D: dispatching three stacks where
the second exits non-zero invokes exactly the first two stacks in order,
never the third, and returns the non-zero-exit error naming the command,
arguments and status. -/
theorem run_stacks_fail_fast_witness :
    run_stacks runnerBetaFailsDemo (ExecOptions.new cfgDispatchDemo "up" [])
        [stackAlphaDemo, stackBetaDemo, stackGammaDemo] =
      ([stackAlphaDemo, stackBetaDemo],
       .error "Error running command `docker compose -p beta up`: exit status: 1") := by
  have h := (run_stacks_fail_fast runnerBetaFailsDemo
      (ExecOptions.new cfgDispatchDemo "up" [])
      [stackAlphaDemo, stackBetaDemo, stackGammaDemo]).2.2.1
      [stackAlphaDemo] stackBetaDemo [stackGammaDemo]
      "Error running command `docker compose -p beta up`: exit status: 1"
      rfl (by intro t ht; simp at ht; subst ht; rfl) rfl
  simpa using h

/-! ### Closure expansion and topological placement (`config.rs`) -/

/-- Loop body shared by `add_dependencies` and `add_dependants`: walk an edge
list, inserting unseen keys and recursing into them (`recur` is the
recursive call one fuel level down). -/
def addEdgeList (recur : String → List String → List String) :
    List String → List String → List String
  | [], keys => keys
  | dep :: rest, keys =>
    if dep ∈ keys then addEdgeList recur rest keys
    else addEdgeList recur rest (recur dep (insertSorted dep keys))

/-- Shared shape of `add_dependencies` / `add_dependants` from `config.rs`,
parameterised by which edge set of a stack is followed. -/
def add_closure_keys (edgeOf : Stack → List String) (m : List (String × Stack)) :
    Nat → String → List String → List String
  | 0, _, keys => keys
  | fuel + 1, stack, keys =>
    addEdgeList (add_closure_keys edgeOf m fuel) (edgeOf (getStack m stack)) keys

/-- `add_dependencies` from `config.rs`. -/
def add_dependencies (m : List (String × Stack)) (fuel : Nat) (stack : String)
    (keys : List String) : List String :=
  add_closure_keys (fun s => s.dependencies) m fuel stack keys

/-- `add_dependants` from `config.rs`. -/
def add_dependants (m : List (String × Stack)) (fuel : Nat) (stack : String)
    (keys : List String) : List String :=
  add_closure_keys (fun s => s.dependants) m fuel stack keys

/-- The closure-expansion step of `stacks_with_dependencies` /
`stacks_with_dependants`: iterate over a clone of the selected keys, adding
the transitive edges of each, skipped when the selection already covers the
whole map. -/
def expandSelection (edgeOf : Stack → List String) (m : List (String × Stack))
    (keys0 : List String) : List String :=
  if keys0.length < m.length then
    keys0.foldl (fun ks k => add_closure_keys edgeOf m (m.length + 1) k ks) keys0
  else keys0

/-- Placement condition of the ordering loops in `config.rs`: every followed
edge is either already placed or outside the working key set. -/
def placeable (edgeOf : Stack → List String) (m : List (String × Stack))
    (keys added : List String) (k : String) : Bool :=
  (edgeOf (getStack m k)).all
    (fun dep => decide (dep ∈ added) || !(decide (dep ∈ keys)))

/-- One scan over the not-yet-placed keys in descending order (the
`for key in keys.iter().rev()` pass of `stacks_with_dependencies`), appending
each placeable stack (`stacks.push(stack)`). -/
def place_pass (edgeOf : Stack → List String) (m : List (String × Stack))
    (keys : List String) :
    List String → List Stack × List String → List Stack × List String
  | [], st => st
  | k :: visit, st =>
    if k ∈ st.2 then place_pass edgeOf m keys visit st
    else if placeable edgeOf m keys st.2 k then
      place_pass edgeOf m keys visit (st.1 ++ [getStack m k], k :: st.2)
    else place_pass edgeOf m keys visit st

/-- The `while stacks.len() != keys.len()` loop of `stacks_with_dependencies`
(push variant). Rust iterates until done; the fuel passed by the caller is
proved sufficient under acyclicity. -/
def place_loop (edgeOf : Stack → List String) (m : List (String × Stack))
    (keys : List String) : Nat → List Stack × List String → List Stack
  | 0, st => st.1
  | fuel + 1, st =>
    if st.1.length = keys.length then st.1
    else place_loop edgeOf m keys fuel (place_pass edgeOf m keys keys.reverse st)

/-- One scan of `stacks_with_dependants`: identical to `place_pass` except
that placeable stacks are prepended (`stacks.insert(0, stack)`). -/
def place_pass_pre (edgeOf : Stack → List String) (m : List (String × Stack))
    (keys : List String) :
    List String → List Stack × List String → List Stack × List String
  | [], st => st
  | k :: visit, st =>
    if k ∈ st.2 then place_pass_pre edgeOf m keys visit st
    else if placeable edgeOf m keys st.2 k then
      place_pass_pre edgeOf m keys visit (getStack m k :: st.1, k :: st.2)
    else place_pass_pre edgeOf m keys visit st

/-- The placement loop of `stacks_with_dependants` (prepend variant). -/
def place_loop_pre (edgeOf : Stack → List String) (m : List (String × Stack))
    (keys : List String) : Nat → List Stack × List String → List Stack
  | 0, st => st.1
  | fuel + 1, st =>
    if st.1.length = keys.length then st.1
    else place_loop_pre edgeOf m keys fuel (place_pass_pre edgeOf m keys keys.reverse st)

/-- `Config::stacks_with_dependencies` from `config.rs`. -/
def stacks_with_dependencies (m : List (String × Stack)) (list : List String) :
    Except String (List Stack) :=
  match stack_keys m list with
  | .error e => .error e
  | .ok keys0 =>
    let keys := expandSelection (fun s => s.dependencies) m keys0
    .ok (place_loop (fun s => s.dependencies) m keys (keys.length + 1) ([], []))

/-- `Config::stacks_with_dependants` from `config.rs`. -/
def stacks_with_dependants (m : List (String × Stack)) (list : List String) :
    Except String (List Stack) :=
  match stack_keys m list with
  | .error e => .error e
  | .ok keys0 =>
    let keys := expandSelection (fun s => s.dependants) m keys0
    .ok (place_loop_pre (fun s => s.dependants) m keys (keys.length + 1) ([], []))

/-! ### Load-time validation (`config.rs`: `check_dependencies`,
`deserialize_stacks`) -/

/-- Validation errors of `deserialize_stacks`. The Rust code builds strings
directly (see `renderCheckErr`); `outOfFuel` has no Rust counterpart — the
Rust recursion is unbounded and the fuel used below is proved sufficient. -/
inductive CheckErr where
  | cycle (key dep : String)
  | unknownDep (dep : String)
  | outOfFuel
deriving DecidableEq, Repr

/-- The error strings produced by `check_dependencies` in `config.rs`. -/
def renderCheckErr : CheckErr → String
  | .cycle key dep =>
    "invalid dependency cycle: \"" ++ key ++ "\" cannot depend on \"" ++ dep ++ "\""
  | .unknownDep dep =>
    "invalid dependency: \"" ++ dep ++ "\" is not a known stack"
  | .outOfFuel => "recursion limit exceeded"

/-- The `for dep in stack.dependencies` loop of `check_dependencies`:
`childCheck` is the recursive call one fuel level down, `key` the key of the
stack under examination. -/
def checkDepList (m : List (String × Stack))
    (childCheck : Stack → Finset String → Except CheckErr (Finset String))
    (key : String) : List String → Finset String → Except CheckErr (Finset String)
  | [], seen => .ok seen
  | dep :: rest, seen =>
    if dep ∈ seen then .error (.cycle key dep)
    else
      match lookupStack m dep with
      | none => .error (.unknownDep dep)
      | some inner =>
        match childCheck inner seen with
        | .error e => .error e
        | .ok seen1 => checkDepList m childCheck key rest seen1

/-- `check_dependencies` from `config.rs`: depth-first traversal with the
"currently visiting" marker set `seen`, which is restored on success. -/
def checkDependencies (m : List (String × Stack)) :
    Nat → Stack → Finset String → Except CheckErr (Finset String)
  | 0, _, _ => .error .outOfFuel
  | fuel + 1, stack, seen =>
    match checkDepList m (checkDependencies m fuel) stack.key stack.dependencies
        (insert stack.key seen) with
    | .error e => .error e
    | .ok seen1 => .ok (seen1.erase stack.key)

/-- First loop of `deserialize_stacks`: assign each stack its mapping key and
default its display name to the key. The `key` and `dependants` fields carry
`#[serde(skip)]`, so before this pass they hold `Default::default()`; the
model materialises that by overwriting `key` and clearing `dependants`. -/
def assignKeys (raw : List (String × Stack)) : List (String × Stack) :=
  raw.map (fun p =>
    (p.1, { p.2 with
            key := p.1
            name := if p.2.name = "" then p.1 else p.2.name
            dependants := [] }))

/-- Second half of the per-key step of `deserialize_stacks`: record `key` as
a dependant of each of its dependencies. -/
def addDependantsFor (m : List (String × Stack)) (key : String)
    (deps : List String) : List (String × Stack) :=
  deps.foldl
    (fun acc dep =>
      updateStack acc dep (fun s => { s with dependants := insertSorted key s.dependants }))
    m

/-- The `for key in keys` validation loop of `deserialize_stacks`, threading
the shared marker set. -/
def deserialize_stacks_go (fuel : Nat) :
    List String → List (String × Stack) → Finset String →
    Except CheckErr (List (String × Stack))
  | [], m, _ => .ok m
  | key :: rest, m, seen =>
    match checkDependencies m fuel (getStack m key) seen with
    | .error e => .error e
    | .ok seen1 =>
      deserialize_stacks_go fuel rest
        (addDependantsFor m key (getStack m key).dependencies) seen1

/-- `deserialize_stacks` from `config.rs` (post-parse validation: key
assignment, cycle/reference checking, dependants index construction). -/
def deserialize_stacks (raw : List (String × Stack)) :
    Except CheckErr (List (String × Stack)) :=
  let stacks0 := assignKeys raw
  deserialize_stacks_go (stacks0.length + 1) (stacks0.map Prod.fst) stacks0 ∅

/-! ### Spec-side relations (closures, walks over declared edges) -/

/-- Declared dependency edge: `a` depends directly on `b`. -/
def depEdge (m : List (String × Stack)) (a b : String) : Prop :=
  ∃ st, lookupStack m a = some st ∧ b ∈ st.dependencies

/-- Nonempty walks along declared dependency edges. -/
inductive Walks (m : List (String × Stack)) : String → String → Prop
  | single {a b : String} : depEdge m a b → Walks m a b
  | cons {a b c : String} : depEdge m a b → Walks m b c → Walks m a c

/-- Reflexive closure of `Walks`. -/
def ReachesKey (m : List (String × Stack)) (a b : String) : Prop :=
  a = b ∨ Walks m a b

/-- Acyclicity of the declared dependency edges. -/
def NoCycle (m : List (String × Stack)) : Prop :=
  ∀ a, ¬ Walks m a a

/-- Transitive closure of a selection along an edge set, as the spec defines
the forward/backward closures: repeatedly add every edge target of every
member, until fixed point. -/
inductive EdgeClosure (edgeOf : Stack → List String) (m : List (String × Stack))
    (sel : List String) : String → Prop
  | base (k : String) : k ∈ sel → EdgeClosure edgeOf m sel k
  | step (k d : String) : EdgeClosure edgeOf m sel k →
      d ∈ edgeOf (getStack m k) → EdgeClosure edgeOf m sel d

/-! ### Command policy (`program.rs`) -/

/-- The `reverse` helper of `program.rs`. -/
def reverseStacks (stks : List Stack) : List Stack := stks.reverse

/-- One dispatch of a subcommand across an ordered stack list, as handed to
`run_against_stacks` (the field for the stack list is named `targets`
because `stacks` is a reserved token here). -/
structure Invocation where
  verb : String
  targets : List Stack
  args : List String
deriving Repr

/-- The `Commands::Restart` arm of `Commands::run` in `program.rs`, as the
pair of dispatches it performs: the `down` phase over the reversed
dependants closure with the caller's trailing arguments, then the `up` phase
over the dependencies closure extended with the remaining torn-down stacks,
with trailing arguments fixed to `--wait`. -/
def restart_plan (config : Config) (selection : List String)
    (args : List String) : Except String (Invocation × Invocation) :=
  match stacks_with_dependants config.stacksMap selection with
  | .error e => .error e
  | .ok ds =>
    let down_stacks := reverseStacks ds
    match stacks_with_dependencies config.stacksMap selection with
    | .error e => .error e
    | .ok up_first =>
      let first_keys := up_first.map Stack.key
      let up_stacks := up_first ++
        (reverseStacks down_stacks).filter (fun s => decide (s.key ∉ first_keys))
      .ok (⟨"down", down_stacks, args⟩, ⟨"up", up_stacks, ["--wait"]⟩)

/-- C10: restart's argument flow. The caller-supplied trailing arguments are
passed to the `down` phase unchanged, and the `up` phase is always invoked
with the trailing argument list exactly `["--wait"]`, whatever the caller
supplied. -/
theorem restart_arg_flow (config : Config) (selection args : List String)
    (d u : Invocation) (h : restart_plan config selection args = .ok (d, u)) :
    d.verb = "down" ∧ d.args = args ∧ u.verb = "up" ∧ u.args = ["--wait"] := by
  unfold restart_plan at h
  cases hds : stacks_with_dependants config.stacksMap selection with
  | error e => rw [hds] at h; cases h
  | ok ds =>
    rw [hds] at h
    cases hup : stacks_with_dependencies config.stacksMap selection with
    | error e => simp only [hup] at h; cases h
    | ok up_first =>
      simp only [hup, Except.ok.injEq, Prod.mk.injEq] at h
      obtain ⟨hd, hu⟩ := h
      subst hd; subst hu
      exact ⟨rfl, rfl, rfl, rfl⟩

/-- C5: composition of restart's `up` phase. The `up` phase processes the
forward (dependencies) closure list first, followed by — in the reversed
order of the teardown list, preserving relative order — every stack of the
teardown list whose key is not already in the forward-closure list; in
particular every stack taken down by restart is also brought back up. -/
theorem restart_up_composition (config : Config) (selection args : List String)
    (d u : Invocation) (h : restart_plan config selection args = .ok (d, u)) :
    ∃ ds up_first,
      stacks_with_dependants config.stacksMap selection = .ok ds ∧
      stacks_with_dependencies config.stacksMap selection = .ok up_first ∧
      d.targets = ds.reverse ∧
      u.targets = up_first ++
        (d.targets.reverse).filter
          (fun s => decide (s.key ∉ up_first.map Stack.key)) ∧
      (∀ s ∈ d.targets, ∃ t ∈ u.targets, t.key = s.key) := by
  unfold restart_plan at h
  cases hds : stacks_with_dependants config.stacksMap selection with
  | error e => rw [hds] at h; cases h
  | ok ds =>
    rw [hds] at h
    cases hup : stacks_with_dependencies config.stacksMap selection with
    | error e => simp only [hup] at h; cases h
    | ok up_first =>
      simp only [hup, Except.ok.injEq, Prod.mk.injEq] at h
      obtain ⟨hd, hu⟩ := h
      subst hd; subst hu
      refine ⟨ds, up_first, rfl, rfl, rfl, ?_, ?_⟩
      · simp [reverseStacks]
      · intro s hs
        simp only [reverseStacks, List.mem_reverse] at hs
        by_cases hk : s.key ∈ up_first.map Stack.key
        · obtain ⟨t, ht, hteq⟩ := List.mem_map.mp hk
          exact ⟨t, List.mem_append_left _ ht, hteq⟩
        · refine ⟨s, List.mem_append_right _ ?_, rfl⟩
          simp only [reverseStacks, List.reverse_reverse]
          exact List.mem_filter.mpr ⟨hs, by simpa using hk⟩

/-! ### Scenario A of the spec: `baz`, `bar` depends on `baz`, `foo` depends
on `bar`; used for concrete witnesses. -/

/-- Loaded stack `bar` of scenario A. -/
def stackBarA : Stack :=
  { key := "bar", name := "bar", directory := none, file := none,
    dependencies := ["baz"], dependants := ["foo"], environment := [] }

/-- Loaded stack `baz` of scenario A. -/
def stackBazA : Stack :=
  { key := "baz", name := "baz", directory := none, file := none,
    dependencies := [], dependants := ["bar"], environment := [] }

/-- Loaded stack `foo` of scenario A. -/
def stackFooA : Stack :=
  { key := "foo", name := "foo", directory := none, file := none,
    dependencies := ["bar"], dependants := [], environment := [] }

/-- Raw (pre-load) scenario-A mapping: the `serde(skip)` fields `key` and
`dependants` hold their defaults, names are unset. -/
def rawA : List (String × Stack) :=
  [("bar", { key := "", name := "", directory := none, file := none,
             dependencies := ["baz"], dependants := [], environment := [] }),
   ("baz", { key := "", name := "", directory := none, file := none,
             dependencies := [], dependants := [], environment := [] }),
   ("foo", { key := "", name := "", directory := none, file := none,
             dependencies := ["bar"], dependants := [], environment := [] })]

/-- Loaded scenario-A mapping. -/
def mA : List (String × Stack) :=
  [("bar", stackBarA), ("baz", stackBazA), ("foo", stackFooA)]

/-- Scenario-A configuration. -/
def cfgA : Config :=
  { base_dir := [], command := ["docker", "compose"], stacksMap := mA,
    environment := [] }

/-- Witness for C10 at scenario A: restarting `baz` with trailing `-v` hands
`-v` to the down phase and exactly `--wait` to the up phase. -/
theorem restart_arg_flow_witness :
    (Invocation.mk "down" [stackFooA, stackBarA, stackBazA] ["-v"]).verb = "down" ∧
    (Invocation.mk "down" [stackFooA, stackBarA, stackBazA] ["-v"]).args = ["-v"] ∧
    (Invocation.mk "up" [stackBazA, stackBarA, stackFooA] ["--wait"]).verb = "up" ∧
    (Invocation.mk "up" [stackBazA, stackBarA, stackFooA] ["--wait"]).args
      = ["--wait"] :=
  restart_arg_flow cfgA ["baz"] ["-v"]
    (Invocation.mk "down" [stackFooA, stackBarA, stackBazA] ["-v"])
    (Invocation.mk "up" [stackBazA, stackBarA, stackFooA] ["--wait"]) (by rfl)

/-- Witness for C5 at scenario A: restarting `baz` tears down
`foo, bar, baz` and brings back up `baz, bar, foo`, covering every
torn-down stack. -/
theorem restart_up_composition_witness :
    ∃ ds up_first,
      stacks_with_dependants cfgA.stacksMap ["baz"] = .ok ds ∧
      stacks_with_dependencies cfgA.stacksMap ["baz"] = .ok up_first ∧
      (Invocation.mk "down" [stackFooA, stackBarA, stackBazA] ["-v"]).targets
        = ds.reverse ∧
      (Invocation.mk "up" [stackBazA, stackBarA, stackFooA] ["--wait"]).targets
        = up_first ++
          ((Invocation.mk "down" [stackFooA, stackBarA, stackBazA] ["-v"]).targets.reverse).filter
            (fun s => decide (s.key ∉ up_first.map Stack.key)) ∧
      (∀ s ∈ (Invocation.mk "down" [stackFooA, stackBarA, stackBazA] ["-v"]).targets,
        ∃ t ∈ (Invocation.mk "up" [stackBazA, stackBarA, stackFooA] ["--wait"]).targets,
          t.key = s.key) :=
  restart_up_composition cfgA ["baz"] ["-v"]
    (Invocation.mk "down" [stackFooA, stackBarA, stackBazA] ["-v"])
    (Invocation.mk "up" [stackBazA, stackBarA, stackFooA] ["--wait"]) (by rfl)

/-! ### Basic lemmas about the container models -/

/-- The BTreeMap/BTreeSet key ordering used throughout: strict ascending
order of the underlying character lists. -/
abbrev SortedKeys (l : List String) : Prop :=
  l.Pairwise (fun a b => a.data < b.data)

theorem mem_insertSorted {x a : String} : ∀ {l : List String},
    a ∈ insertSorted x l ↔ a = x ∨ a ∈ l := by
  intro l
  induction l with
  | nil => simp [insertSorted]
  | cons y ys ih =>
    by_cases h1 : x.data < y.data
    · simp [insertSorted, h1]
    · by_cases h2 : x = y
      · subst h2
        simp only [insertSorted, h1, if_false, if_pos rfl]
        constructor
        · exact Or.inr
        · rintro (rfl | h) <;> simp [*]
      · simp only [insertSorted, h1, if_false, h2, List.mem_cons, ih]
        tauto

theorem data_injective {a b : String} (h : a.data = b.data) : a = b :=
  congrArg String.mk h

theorem pairwise_insertSorted {x : String} : ∀ {l : List String},
    SortedKeys l → SortedKeys (insertSorted x l) := by
  intro l
  induction l with
  | nil => intro _; simp [insertSorted]
  | cons y ys ih =>
    intro hp
    rcases List.pairwise_cons.mp hp with ⟨hy, hys⟩
    by_cases h1 : x.data < y.data
    · simp only [insertSorted, h1, if_true]
      refine List.pairwise_cons.mpr ⟨?_, hp⟩
      intro b hb
      rcases List.mem_cons.mp hb with rfl | hb
      · exact h1
      · exact lt_trans h1 (hy b hb)
    · by_cases h2 : x = y
      · subst h2
        simpa [insertSorted, h1] using hp
      · have h3 : y.data < x.data := by
          rcases lt_trichotomy x.data y.data with h | h | h
          · exact absurd h h1
          · exact absurd (data_injective h) h2
          · exact h
        simp only [insertSorted, h1, if_false, h2]
        refine List.pairwise_cons.mpr ⟨?_, ih hys⟩
        intro b hb
        rcases mem_insertSorted.mp hb with rfl | hb
        · exact h3
        · exact hy b hb

theorem sortedKeys_nodup {l : List String} (h : SortedKeys l) : l.Nodup :=
  h.imp (fun hab => by
    intro he
    subst he
    exact lt_irrefl _ hab)

theorem lookupStack_eq_none {m : List (String × Stack)} {k : String} :
    lookupStack m k = none ↔ k ∉ m.map Prod.fst := by
  induction m with
  | nil => simp [lookupStack]
  | cons p rest ih =>
    by_cases h : p.1 = k
    · simp [lookupStack, h]
    · simp [lookupStack, h, ih, Ne.symm h]

theorem exists_lookup_of_mem_fst {m : List (String × Stack)} {k : String}
    (h : k ∈ m.map Prod.fst) : ∃ st, lookupStack m k = some st := by
  cases hl : lookupStack m k with
  | none => exact absurd h (lookupStack_eq_none.mp hl)
  | some st => exact ⟨st, rfl⟩

theorem mem_map_fst_of_lookup {m : List (String × Stack)} {k : String} {st : Stack}
    (h : lookupStack m k = some st) : k ∈ m.map Prod.fst := by
  by_contra hmem
  rw [lookupStack_eq_none.mpr hmem] at h
  cases h

theorem lookupStack_mem {m : List (String × Stack)} {k : String} {st : Stack}
    (h : lookupStack m k = some st) : (k, st) ∈ m := by
  induction m with
  | nil => cases h
  | cons p rest ih =>
    rcases p with ⟨a, b⟩
    by_cases hp : a = k
    · subst hp
      simp only [lookupStack, if_pos rfl] at h
      cases h
      exact List.mem_cons_self _ _
    · simp only [lookupStack, hp, if_false] at h
      exact List.mem_cons_of_mem _ (ih h)

theorem containsKey_eq_isSome (m : List (String × Stack)) (k : String) :
    containsKey m k = (lookupStack m k).isSome := by
  induction m with
  | nil => rfl
  | cons p rest ih =>
    by_cases h : p.1 = k <;> simp [containsKey, lookupStack, h, ih]

theorem containsKey_iff_mem {m : List (String × Stack)} {k : String} :
    containsKey m k = true ↔ k ∈ m.map Prod.fst := by
  rw [containsKey_eq_isSome, Option.isSome_iff_exists]
  constructor
  · rintro ⟨st, hst⟩; exact mem_map_fst_of_lookup hst
  · intro h; obtain ⟨st, hst⟩ := exists_lookup_of_mem_fst h; exact ⟨st, hst⟩

theorem updateStack_map_fst (m : List (String × Stack)) (k : String)
    (f : Stack → Stack) : (updateStack m k f).map Prod.fst = m.map Prod.fst := by
  induction m with
  | nil => rfl
  | cons p rest ih =>
    by_cases h : p.1 = k <;> simp [updateStack, h] <;>
      simpa [updateStack] using ih

theorem lookup_updateStack (m : List (String × Stack)) (k : String)
    (f : Stack → Stack) (a : String) :
    lookupStack (updateStack m k f) a =
      if a = k then (lookupStack m a).map f else lookupStack m a := by
  induction m with
  | nil => simp [updateStack, lookupStack]
  | cons p rest ih =>
    by_cases hp : p.1 = k
    · by_cases ha : p.1 = a
      · have : a = k := by rw [← ha, hp]
        simp [updateStack, lookupStack, hp, ha, this]
      · simp only [updateStack, List.map_cons, if_pos hp, lookupStack, ha, if_false]
        simpa [updateStack] using ih
    · by_cases ha : p.1 = a
      · have : ¬ a = k := by rw [← ha]; exact hp
        simp [updateStack, lookupStack, hp, ha, this]
      · simp only [updateStack, List.map_cons, if_neg hp, lookupStack, ha, if_false]
        simpa [updateStack] using ih

theorem assignKeys_map_fst (raw : List (String × Stack)) :
    (assignKeys raw).map Prod.fst = raw.map Prod.fst := by
  induction raw with
  | nil => rfl
  | cons p rest ih => simp [assignKeys]

theorem lookup_assignKeys (raw : List (String × Stack)) (a : String) :
    lookupStack (assignKeys raw) a = (lookupStack raw a).map
      (fun st => { st with
                   key := a
                   name := if st.name = "" then a else st.name
                   dependants := [] }) := by
  induction raw with
  | nil => rfl
  | cons p rest ih =>
    by_cases h : p.1 = a
    · subst h
      simp [assignKeys, lookupStack]
    · simp only [assignKeys, List.map_cons, lookupStack, h, if_false]
      simpa [assignKeys] using ih

/-- Every stored stack records its own mapping key. -/
def KeysConsistent (m : List (String × Stack)) : Prop :=
  ∀ k st, lookupStack m k = some st → st.key = k

theorem keysConsistent_assignKeys (raw : List (String × Stack)) :
    KeysConsistent (assignKeys raw) := by
  intro k st h
  rw [lookup_assignKeys] at h
  cases hraw : lookupStack raw k with
  | none => rw [hraw] at h; cases h
  | some st0 =>
    rw [hraw] at h
    simp only [Option.map_some', Option.some.injEq] at h
    subst h
    rfl

/-! ### Edge-preserving equivalence of stack maps -/

/-- Forget the derived `dependants` index of a stack. -/
def stripDependants (s : Stack) : Stack := { s with dependants := [] }

/-- Two maps agree on everything except possibly the `dependants` indexes. -/
def DepEq (m1 m2 : List (String × Stack)) : Prop :=
  ∀ k, (lookupStack m1 k).map stripDependants = (lookupStack m2 k).map stripDependants

theorem DepEq.refl (m : List (String × Stack)) : DepEq m m := fun _ => rfl

theorem DepEq.symm {m1 m2 : List (String × Stack)} (h : DepEq m1 m2) :
    DepEq m2 m1 := fun k => (h k).symm

theorem DepEq.trans {m1 m2 m3 : List (String × Stack)} (h1 : DepEq m1 m2)
    (h2 : DepEq m2 m3) : DepEq m1 m3 := fun k => (h1 k).trans (h2 k)

theorem DepEq.lookup_some {m1 m2 : List (String × Stack)} (h : DepEq m1 m2)
    {k : String} {st : Stack} (hl : lookupStack m1 k = some st) :
    ∃ st2, lookupStack m2 k = some st2 ∧ stripDependants st = stripDependants st2 := by
  have hk := h k
  rw [hl] at hk
  cases h2 : lookupStack m2 k with
  | none => rw [h2] at hk; cases hk
  | some st2 =>
    rw [h2] at hk
    simp only [Option.map_some', Option.some.injEq] at hk
    exact ⟨st2, rfl, hk⟩

theorem stripDependants_key (s : Stack) : (stripDependants s).key = s.key := rfl

theorem stripDependants_dependencies (s : Stack) :
    (stripDependants s).dependencies = s.dependencies := rfl

theorem DepEq.containsKey_eq {m1 m2 : List (String × Stack)} (h : DepEq m1 m2)
    (k : String) : containsKey m1 k = containsKey m2 k := by
  rw [containsKey_eq_isSome, containsKey_eq_isSome]
  have hk := h k
  cases h1 : lookupStack m1 k <;> cases h2 : lookupStack m2 k <;>
    rw [h1, h2] at hk <;> simp_all

theorem DepEq.keysConsistent {m1 m2 : List (String × Stack)} (h : DepEq m1 m2)
    (hkc : KeysConsistent m1) : KeysConsistent m2 := by
  intro k st2 hl2
  obtain ⟨st1, hl1, hs⟩ := h.symm.lookup_some hl2
  have : st1.key = k := hkc k st1 hl1
  rw [← stripDependants_key st2, hs, stripDependants_key]
  exact this

theorem DepEq.depEdge_iff {m1 m2 : List (String × Stack)} (h : DepEq m1 m2)
    (a b : String) : depEdge m1 a b ↔ depEdge m2 a b := by
  constructor
  · rintro ⟨st, hl, hb⟩
    obtain ⟨st2, hl2, hs⟩ := h.lookup_some hl
    refine ⟨st2, hl2, ?_⟩
    rw [← stripDependants_dependencies, ← hs, stripDependants_dependencies]
    exact hb
  · rintro ⟨st, hl, hb⟩
    obtain ⟨st1, hl1, hs⟩ := h.symm.lookup_some hl
    refine ⟨st1, hl1, ?_⟩
    rw [← stripDependants_dependencies, ← hs, stripDependants_dependencies]
    exact hb

theorem DepEq.walks_iff {m1 m2 : List (String × Stack)} (h : DepEq m1 m2)
    (a b : String) : Walks m1 a b ↔ Walks m2 a b := by
  have one : ∀ {x y : List (String × Stack)}, DepEq x y →
      ∀ {a b}, Walks x a b → Walks y a b := by
    intro x y hxy a b hw
    induction hw with
    | single he => exact Walks.single ((hxy.depEdge_iff _ _).mp he)
    | cons he _ ih => exact Walks.cons ((hxy.depEdge_iff _ _).mp he) ih
  exact ⟨one h, one h.symm⟩

theorem depEq_updateStack_dependants (m : List (String × Stack)) (k : String)
    (g : Stack → List String) :
    DepEq m (updateStack m k (fun s => { s with dependants := g s })) := by
  intro a
  rw [lookup_updateStack]
  by_cases ha : a = k
  · rw [if_pos ha]
    cases lookupStack m a <;> rfl
  · rw [if_neg ha]

theorem addDependantsFor_eq_foldl (m : List (String × Stack)) (key : String)
    (deps : List String) :
    addDependantsFor m key deps = deps.foldl
      (fun acc dep => updateStack acc dep
        (fun s => { s with dependants := insertSorted key s.dependants })) m := rfl

theorem depEq_addDependantsFor (m : List (String × Stack)) (key : String)
    (deps : List String) : DepEq m (addDependantsFor m key deps) := by
  induction deps generalizing m with
  | nil => exact DepEq.refl m
  | cons d rest ih =>
    have h1 := depEq_updateStack_dependants m d
      (fun s => insertSorted key s.dependants)
    exact h1.trans (ih _)

theorem addDependantsFor_map_fst (m : List (String × Stack)) (key : String)
    (deps : List String) :
    (addDependantsFor m key deps).map Prod.fst = m.map Prod.fst := by
  induction deps generalizing m with
  | nil => rfl
  | cons d rest ih =>
    calc (addDependantsFor (updateStack m d _) key rest).map Prod.fst
        = (updateStack m d _).map Prod.fst := ih _
      _ = m.map Prod.fst := updateStack_map_fst m d _

theorem DepEq.getStack_dependencies {m1 m2 : List (String × Stack)}
    (h : DepEq m1 m2) (k : String) :
    (getStack m1 k).dependencies = (getStack m2 k).dependencies := by
  unfold getStack
  cases h1 : lookupStack m1 k with
  | none =>
    cases h2 : lookupStack m2 k with
    | none => rfl
    | some st2 =>
      obtain ⟨st1, hl1, _⟩ := h.symm.lookup_some h2
      rw [h1] at hl1; cases hl1
  | some st1 =>
    obtain ⟨st2, hl2, hs⟩ := h.lookup_some h1
    rw [hl2]
    simpa using congrArg Stack.dependencies hs

/-! ### Walks and ranks over declared edges -/

theorem walks_snoc {m : List (String × Stack)} {a b c : String}
    (hw : Walks m a b) (he : depEdge m b c) : Walks m a c := by
  induction hw with
  | single h1 => exact Walks.cons h1 (Walks.single he)
  | cons h1 _ ih => exact Walks.cons h1 (ih he)

theorem reaches_snoc {m : List (String × Stack)} {a b c : String}
    (hr : ReachesKey m a b) (he : depEdge m b c) : Walks m a c := by
  rcases hr with rfl | hw
  · exact Walks.single he
  · exact walks_snoc hw he

theorem rank_lt_of_walks {m : List (String × Stack)} {rank : String → Nat}
    (hrk : ∀ a b, depEdge m a b → rank b < rank a) {a b : String}
    (hw : Walks m a b) : rank b < rank a := by
  induction hw with
  | single h1 => exact hrk _ _ h1
  | cons h1 _ ih => exact lt_trans ih (hrk _ _ h1)

theorem rank_le_of_reaches {m : List (String × Stack)} {rank : String → Nat}
    (hrk : ∀ a b, depEdge m a b → rank b < rank a) {a b : String}
    (hr : ReachesKey m a b) : rank b ≤ rank a := by
  rcases hr with rfl | hw
  · exact le_refl _
  · exact le_of_lt (rank_lt_of_walks hrk hw)

theorem noCycle_of_rank {m : List (String × Stack)} {rank : String → Nat}
    (hrk : ∀ a b, depEdge m a b → rank b < rank a) : NoCycle m := by
  intro a hw
  exact absurd (rank_lt_of_walks hrk hw) (lt_irrefl _)

theorem depEdge_mem_fst {m : List (String × Stack)} {a b : String}
    (h : depEdge m a b) : a ∈ m.map Prod.fst := by
  obtain ⟨st, hl, _⟩ := h
  exact mem_map_fst_of_lookup hl

theorem exists_rank_of_noCycle {m : List (String × Stack)} (h : NoCycle m) :
    ∃ rank : String → Nat, ∀ a b, depEdge m a b → rank b < rank a := by
  classical
  refine ⟨fun a =>
    ((m.map Prod.fst).toFinset.filter (fun x => ReachesKey m a x)).card, ?_⟩
  intro a b hab
  apply Finset.card_lt_card
  rw [Finset.ssubset_iff_of_subset]
  · refine ⟨a, ?_, ?_⟩
    · exact Finset.mem_filter.mpr
        ⟨List.mem_toFinset.mpr (depEdge_mem_fst hab), Or.inl rfl⟩
    · intro hmem
      have hra : ReachesKey m b a := (Finset.mem_filter.mp hmem).2
      rcases hra with heq | hw
      · subst heq
        exact h _ (Walks.single hab)
      · exact h _ (Walks.cons hab hw)
  · intro x hx
    rcases Finset.mem_filter.mp hx with ⟨hx1, hx2⟩
    refine Finset.mem_filter.mpr ⟨hx1, ?_⟩
    rcases hx2 with rfl | hw
    · exact Or.inr (Walks.single hab)
    · exact Or.inr (Walks.cons hab hw)

/-! ### Properties of the depth-first cycle check -/

/-- Every declared dependency of every stored stack is itself a key. -/
def ValidRefs (m : List (String × Stack)) : Prop :=
  ∀ k st, lookupStack m k = some st → ∀ d ∈ st.dependencies, containsKey m d = true

theorem checkDepList_restore {m : List (String × Stack)}
    {cc : Stack → Finset String → Except CheckErr (Finset String)}
    (hkc : KeysConsistent m)
    (hcc : ∀ st seen r, cc st seen = .ok r → st.key ∉ seen → r = seen)
    {key : String} :
    ∀ {list : List String} {seen r : Finset String},
      checkDepList m cc key list seen = .ok r → r = seen := by
  intro list
  induction list with
  | nil =>
    intro seen r h
    cases h
    rfl
  | cons d rest ih =>
    intro seen r h
    by_cases h1 : d ∈ seen
    · simp only [checkDepList, h1, if_true] at h
      cases h
    · cases hl : lookupStack m d with
      | none =>
        simp only [checkDepList, h1, if_false, hl] at h
        cases h
      | some inner =>
        cases hcc2 : cc inner seen with
        | error e =>
          simp only [checkDepList, h1, if_false, hl, hcc2] at h
          cases h
        | ok seen1 =>
          simp only [checkDepList, h1, if_false, hl, hcc2] at h
          have hk : inner.key = d := hkc d inner hl
          have hs : seen1 = seen := hcc inner seen seen1 hcc2 (by rw [hk]; exact h1)
          subst hs
          exact ih h

theorem checkDependencies_restore {m : List (String × Stack)}
    (hkc : KeysConsistent m) :
    ∀ (fuel : Nat) {st : Stack} {seen r : Finset String},
      checkDependencies m fuel st seen = .ok r → st.key ∉ seen → r = seen := by
  intro fuel
  induction fuel with
  | zero =>
    intro st seen r h _
    exact absurd h (by simp [checkDependencies])
  | succ fuel ih =>
    intro st seen r h hns
    simp only [checkDependencies] at h
    cases hlist : checkDepList m (checkDependencies m fuel) st.key
        st.dependencies (insert st.key seen) with
    | error e => rw [hlist] at h; cases h
    | ok seen1 =>
      rw [hlist] at h
      simp only [Except.ok.injEq] at h
      have h2 : seen1 = insert st.key seen :=
        checkDepList_restore hkc (fun _ _ _ hc hn => ih hc hn) hlist
      rw [← h, h2, Finset.erase_insert hns]

theorem checkDepList_ok_forall {m : List (String × Stack)}
    {cc : Stack → Finset String → Except CheckErr (Finset String)}
    (hkc : KeysConsistent m)
    (hcc : ∀ st seen r, cc st seen = .ok r → st.key ∉ seen → r = seen)
    {key : String} :
    ∀ {list : List String} {seen r : Finset String},
      checkDepList m cc key list seen = .ok r →
      ∀ dep ∈ list, dep ∉ seen ∧ ∃ inner, lookupStack m dep = some inner ∧
        cc inner seen = .ok seen := by
  intro list
  induction list with
  | nil =>
    intro seen r _ dep hdep
    cases hdep
  | cons d rest ih =>
    intro seen r h dep hdep
    by_cases h1 : d ∈ seen
    · simp only [checkDepList, h1, if_true] at h
      cases h
    · cases hl : lookupStack m d with
      | none =>
        simp only [checkDepList, h1, if_false, hl] at h
        cases h
      | some inner =>
        cases hcc2 : cc inner seen with
        | error e =>
          simp only [checkDepList, h1, if_false, hl, hcc2] at h
          cases h
        | ok seen1 =>
          have hk : inner.key = d := hkc d inner hl
          have hs : seen1 = seen := hcc inner seen seen1 hcc2 (by rw [hk]; exact h1)
          simp only [checkDepList, h1, if_false, hl, hcc2] at h
          rw [hs] at h
          rcases List.mem_cons.mp hdep with rfl | hmem
          · exact ⟨h1, inner, hl, hs ▸ hcc2⟩
          · exact ih h dep hmem

theorem checkDependencies_ok_no_walk {m : List (String × Stack)}
    (hkc : KeysConsistent m) :
    ∀ (fuel : Nat) {st : Stack} {seen r : Finset String},
      checkDependencies m fuel st seen = .ok r →
      lookupStack m st.key = some st →
      ∀ t, Walks m st.key t → t ∉ seen ∧ t ≠ st.key := by
  intro fuel
  induction fuel with
  | zero =>
    intro st seen r h
    exact absurd h (by simp [checkDependencies])
  | succ fuel ih =>
    intro st seen r h hlk t hw
    simp only [checkDependencies] at h
    cases hlist : checkDepList m (checkDependencies m fuel) st.key
        st.dependencies (insert st.key seen) with
    | error e => rw [hlist] at h; cases h
    | ok seen1 =>
      have hforall := checkDepList_ok_forall hkc
        (fun _ _ _ hc hn => checkDependencies_restore hkc fuel hc hn) hlist
      have hout : ∀ u, u ∈ st.dependencies → u ∉ insert st.key seen ∧
          ∃ inner, lookupStack m u = some inner ∧
            checkDependencies m fuel inner (insert st.key seen)
              = .ok (insert st.key seen) := hforall
      cases hw with
      | single hedge =>
        obtain ⟨st2, hl2, hdep⟩ := hedge
        rw [hlk] at hl2
        injection hl2 with he
        subst he
        have h3 := (hout t hdep).1
        rw [Finset.mem_insert] at h3
        push_neg at h3
        exact ⟨h3.2, h3.1⟩
      | cons hedge hrest =>
        rename_i b
        obtain ⟨st2, hl2, hdep⟩ := hedge
        rw [hlk] at hl2
        injection hl2 with he
        subst he
        obtain ⟨_, inner, hlinner, hccok⟩ := hout b hdep
        have hbkey : inner.key = b := hkc b inner hlinner
        have h4 := ih hccok (by rw [hbkey]; exact hlinner) t
          (by rw [hbkey]; exact hrest)
        have h5 := h4.1
        rw [Finset.mem_insert] at h5
        push_neg at h5
        exact ⟨h5.2, h5.1⟩

theorem checkDepList_cycle {m : List (String × Stack)}
    {cc : Stack → Finset String → Except CheckErr (Finset String)}
    (hkc : KeysConsistent m)
    (hccR : ∀ st seen r, cc st seen = .ok r → st.key ∉ seen → r = seen)
    (hccC : ∀ st seen a b, cc st seen = .error (.cycle a b) →
        lookupStack m st.key = some st →
        (∀ x ∈ seen, ReachesKey m x st.key) →
        depEdge m a b ∧ Walks m b a)
    {key : String} {st0 : Stack} (hl0 : lookupStack m key = some st0) :
    ∀ {list : List String} {seen : Finset String} {a b : String},
      (∀ d ∈ list, d ∈ st0.dependencies) →
      (∀ x ∈ seen, ReachesKey m x key) →
      checkDepList m cc key list seen = .error (.cycle a b) →
      depEdge m a b ∧ Walks m b a := by
  intro list
  induction list with
  | nil =>
    intro seen a b _ _ h
    cases h
  | cons d rest ih =>
    intro seen a b hsub hpath h
    have hedge : depEdge m key d := ⟨st0, hl0, hsub d (List.mem_cons_self d rest)⟩
    by_cases h1 : d ∈ seen
    · simp only [checkDepList, h1, if_true, Except.error.injEq, CheckErr.cycle.injEq] at h
      obtain ⟨rfl, rfl⟩ := h
      refine ⟨hedge, ?_⟩
      rcases hpath d h1 with heq | hw
      · subst heq
        exact Walks.single hedge
      · exact hw
    · cases hl : lookupStack m d with
      | none =>
        simp only [checkDepList, h1, if_false, hl] at h
        cases h
      | some inner =>
        cases hcc2 : cc inner seen with
        | error e =>
          simp only [checkDepList, h1, if_false, hl, hcc2, Except.error.injEq] at h
          subst h
          have hk : inner.key = d := hkc d inner hl
          refine hccC inner seen a b hcc2 (by rw [hk]; exact hl) ?_
          intro x hx
          rw [hk]
          exact Or.inr (reaches_snoc (hpath x hx) hedge)
        | ok seen1 =>
          have hk : inner.key = d := hkc d inner hl
          have hs : seen1 = seen := hccR inner seen seen1 hcc2 (by rw [hk]; exact h1)
          simp only [checkDepList, h1, if_false, hl, hcc2] at h
          rw [hs] at h
          exact ih (fun x hx => hsub x (List.mem_cons_of_mem d hx)) hpath h

theorem checkDependencies_cycle_edge {m : List (String × Stack)}
    (hkc : KeysConsistent m) :
    ∀ (fuel : Nat) {st : Stack} {seen : Finset String} {a b : String},
      checkDependencies m fuel st seen = .error (.cycle a b) →
      lookupStack m st.key = some st →
      (∀ x ∈ seen, ReachesKey m x st.key) →
      depEdge m a b ∧ Walks m b a := by
  intro fuel
  induction fuel with
  | zero =>
    intro st seen a b h
    exact absurd h (by simp [checkDependencies])
  | succ fuel ih =>
    intro st seen a b h hlk hpath
    simp only [checkDependencies] at h
    cases hlist : checkDepList m (checkDependencies m fuel) st.key
        st.dependencies (insert st.key seen) with
    | error e =>
      rw [hlist] at h
      simp only [Except.error.injEq] at h
      subst h
      refine checkDepList_cycle hkc
        (fun _ _ _ hc hn => checkDependencies_restore hkc fuel hc hn)
        (fun _ _ _ _ hc hl hp => ih hc hl hp) hlk
        (fun d hd => hd) ?_ hlist
      intro x hx
      rcases Finset.mem_insert.mp hx with rfl | hx2
      · exact Or.inl rfl
      · exact hpath x hx2
    | ok seen1 =>
      rw [hlist] at h
      cases h

theorem checkDepList_no_unknown {m : List (String × Stack)}
    {cc : Stack → Finset String → Except CheckErr (Finset String)}
    (hccU : ∀ st seen d, lookupStack m st.key = some st →
        cc st seen ≠ .error (.unknownDep d))
    (hkc : KeysConsistent m) {key : String} :
    ∀ {list : List String} {seen : Finset String} {d : String},
      (∀ x ∈ list, containsKey m x = true) →
      checkDepList m cc key list seen ≠ .error (.unknownDep d) := by
  intro list
  induction list with
  | nil =>
    intro seen d _ h
    cases h
  | cons x rest ih =>
    intro seen d hvalid h
    by_cases h1 : x ∈ seen
    · simp only [checkDepList, h1, if_true] at h
      cases h
    · cases hl : lookupStack m x with
      | none =>
        have := containsKey_iff_mem.mp (hvalid x (List.mem_cons_self x rest))
        obtain ⟨st, hst⟩ := exists_lookup_of_mem_fst this
        rw [hst] at hl
        cases hl
      | some inner =>
        cases hcc2 : cc inner seen with
        | error e =>
          simp only [checkDepList, h1, if_false, hl, hcc2, Except.error.injEq] at h
          subst h
          have hk : inner.key = x := hkc x inner hl
          exact hccU inner seen d (by rw [hk]; exact hl) hcc2
        | ok seen1 =>
          simp only [checkDepList, h1, if_false, hl, hcc2] at h
          exact ih (fun y hy => hvalid y (List.mem_cons_of_mem x hy)) h

theorem checkDependencies_no_unknown {m : List (String × Stack)}
    (hkc : KeysConsistent m) (hvr : ValidRefs m) :
    ∀ (fuel : Nat) {st : Stack} {seen : Finset String} {d : String},
      lookupStack m st.key = some st →
      checkDependencies m fuel st seen ≠ .error (.unknownDep d) := by
  intro fuel
  induction fuel with
  | zero =>
    intro st seen d _ h
    simp [checkDependencies] at h
  | succ fuel ih =>
    intro st seen d hlk h
    simp only [checkDependencies] at h
    cases hlist : checkDepList m (checkDependencies m fuel) st.key
        st.dependencies (insert st.key seen) with
    | error e =>
      rw [hlist] at h
      simp only [Except.error.injEq] at h
      subst h
      exact checkDepList_no_unknown (fun _ _ _ hl hc => ih hl hc) hkc
        (fun x hx => hvr st.key st hlk x hx) hlist
    | ok seen1 =>
      rw [hlist] at h
      cases h

theorem checkDepList_no_fuel {m : List (String × Stack)}
    {cc : Stack → Finset String → Except CheckErr (Finset String)}
    (hkc : KeysConsistent m)
    (hccR : ∀ st seen r, cc st seen = .ok r → st.key ∉ seen → r = seen)
    {key : String} {seen : Finset String}
    (hccF : ∀ st, lookupStack m st.key = some st → st.key ∉ seen →
        cc st seen ≠ .error .outOfFuel) :
    ∀ {list : List String}, checkDepList m cc key list seen ≠ .error .outOfFuel := by
  intro list
  induction list with
  | nil =>
    intro h
    cases h
  | cons x rest ih =>
    intro h
    by_cases h1 : x ∈ seen
    · simp only [checkDepList, h1, if_true] at h
      cases h
    · cases hl : lookupStack m x with
      | none =>
        simp only [checkDepList, h1, if_false, hl] at h
        cases h
      | some inner =>
        cases hcc2 : cc inner seen with
        | error e =>
          simp only [checkDepList, h1, if_false, hl, hcc2, Except.error.injEq] at h
          subst h
          have hk : inner.key = x := hkc x inner hl
          exact hccF inner (by rw [hk]; exact hl) (by rw [hk]; exact h1) hcc2
        | ok seen1 =>
          have hk : inner.key = x := hkc x inner hl
          have hs : seen1 = seen := hccR inner seen seen1 hcc2 (by rw [hk]; exact h1)
          simp only [checkDepList, h1, if_false, hl, hcc2] at h
          rw [hs] at h
          exact ih h

theorem checkDependencies_no_fuel {m : List (String × Stack)}
    (hkc : KeysConsistent m) :
    ∀ (fuel : Nat) {st : Stack} {seen : Finset String},
      lookupStack m st.key = some st → st.key ∉ seen →
      seen ⊆ (m.map Prod.fst).toFinset →
      (((m.map Prod.fst).toFinset \ seen).card < fuel) →
      checkDependencies m fuel st seen ≠ .error .outOfFuel := by
  intro fuel
  induction fuel with
  | zero =>
    intro st seen _ _ _ hcard
    exact absurd hcard (Nat.not_lt_zero _)
  | succ fuel ih =>
    intro st seen hlk hns hsub hcard h
    simp only [checkDependencies] at h
    cases hlist : checkDepList m (checkDependencies m fuel) st.key
        st.dependencies (insert st.key seen) with
    | error e =>
      rw [hlist] at h
      simp only [Except.error.injEq] at h
      subst h
      have hkmem : st.key ∈ (m.map Prod.fst).toFinset :=
        List.mem_toFinset.mpr (mem_map_fst_of_lookup hlk)
      have hsub2 : insert st.key seen ⊆ (m.map Prod.fst).toFinset :=
        Finset.insert_subset_iff.mpr ⟨hkmem, hsub⟩
      have hkdiff : st.key ∈ (m.map Prod.fst).toFinset \ seen :=
        Finset.mem_sdiff.mpr ⟨hkmem, hns⟩
      have hcard2 : (((m.map Prod.fst).toFinset \ insert st.key seen).card < fuel) := by
        rw [Finset.sdiff_insert, Finset.card_erase_of_mem hkdiff]
        have hpos : 0 < ((m.map Prod.fst).toFinset \ seen).card :=
          Finset.card_pos.mpr ⟨st.key, hkdiff⟩
        omega
      refine checkDepList_no_fuel hkc
        (fun _ _ _ hc hn => checkDependencies_restore hkc fuel hc hn) ?_ hlist
      intro st2 hl2 hn2
      exact ih hl2 hn2 hsub2 hcard2
    | ok seen1 =>
      rw [hlist] at h
      cases h

theorem checkDepList_all_ok {m : List (String × Stack)}
    {cc : Stack → Finset String → Except CheckErr (Finset String)}
    (hkc : KeysConsistent m) (hvr : ValidRefs m)
    {rank : String → Nat} (hrk : ∀ a b, depEdge m a b → rank b < rank a)
    {key : String} {st0 : Stack} {seen : Finset String}
    (hl0 : lookupStack m key = some st0)
    (hpath : ∀ x ∈ seen, ReachesKey m x key)
    (hcc : ∀ d inner, d ∈ st0.dependencies → lookupStack m d = some inner →
        d ∉ seen → cc inner seen = .ok seen) :
    ∀ {list : List String}, (∀ d ∈ list, d ∈ st0.dependencies) →
      checkDepList m cc key list seen = .ok seen := by
  intro list
  induction list with
  | nil => intro _; rfl
  | cons d rest ih =>
    intro hsub
    have hd : d ∈ st0.dependencies := hsub d (List.mem_cons_self d rest)
    have hedge : depEdge m key d := ⟨st0, hl0, hd⟩
    have h1 : d ∉ seen := by
      intro hmem
      have hreach : ReachesKey m d key := hpath d hmem
      have h2 : rank key ≤ rank d := rank_le_of_reaches hrk hreach
      have h3 : rank d < rank key := hrk key d hedge
      omega
    obtain ⟨inner, hl⟩ := exists_lookup_of_mem_fst
      (containsKey_iff_mem.mp (hvr key st0 hl0 d hd))
    have hccok : cc inner seen = .ok seen := hcc d inner hd hl h1
    simp only [checkDepList, h1, if_false, hl, hccok]
    exact ih (fun x hx => hsub x (List.mem_cons_of_mem d hx))

theorem checkDependencies_all_ok {m : List (String × Stack)}
    (hkc : KeysConsistent m) (hvr : ValidRefs m)
    {rank : String → Nat} (hrk : ∀ a b, depEdge m a b → rank b < rank a) :
    ∀ (fuel : Nat) {st : Stack} {seen : Finset String},
      lookupStack m st.key = some st → st.key ∉ seen →
      seen ⊆ (m.map Prod.fst).toFinset →
      (∀ x ∈ seen, ReachesKey m x st.key) →
      (((m.map Prod.fst).toFinset \ seen).card < fuel) →
      checkDependencies m fuel st seen = .ok seen := by
  intro fuel
  induction fuel with
  | zero =>
    intro st seen _ _ _ _ hcard
    exact absurd hcard (Nat.not_lt_zero _)
  | succ fuel ih =>
    intro st seen hlk hns hsub hpath hcard
    have hkmem : st.key ∈ (m.map Prod.fst).toFinset :=
      List.mem_toFinset.mpr (mem_map_fst_of_lookup hlk)
    have hkdiff : st.key ∈ (m.map Prod.fst).toFinset \ seen :=
      Finset.mem_sdiff.mpr ⟨hkmem, hns⟩
    have hsub2 : insert st.key seen ⊆ (m.map Prod.fst).toFinset :=
      Finset.insert_subset_iff.mpr ⟨hkmem, hsub⟩
    have hcard2 : (((m.map Prod.fst).toFinset \ insert st.key seen).card < fuel) := by
      rw [Finset.sdiff_insert, Finset.card_erase_of_mem hkdiff]
      have hpos : 0 < ((m.map Prod.fst).toFinset \ seen).card :=
        Finset.card_pos.mpr ⟨st.key, hkdiff⟩
      omega
    have hpath2 : ∀ x ∈ insert st.key seen, ReachesKey m x st.key := by
      intro x hx
      rcases Finset.mem_insert.mp hx with rfl | hx2
      · exact Or.inl rfl
      · exact hpath x hx2
    have hlist : checkDepList m (checkDependencies m fuel) st.key
        st.dependencies (insert st.key seen) = .ok (insert st.key seen) := by
      refine checkDepList_all_ok hkc hvr hrk hlk hpath2 ?_ (fun d hd => hd)
      intro d inner hd hld hnd
      have hik : inner.key = d := hkc d inner hld
      refine ih (by rw [hik]; exact hld) (by rw [hik]; exact hnd) hsub2 ?_ hcard2
      intro x hx
      rw [hik]
      exact Or.inr (reaches_snoc (hpath2 x hx) ⟨st, hlk, hd⟩)
    simp only [checkDependencies, hlist, Finset.erase_insert hns]

/-! ### Properties of the full load pass (`deserialize_stacks`) -/

theorem DepEq.validRefs {m1 m2 : List (String × Stack)} (h : DepEq m1 m2)
    (hvr : ValidRefs m1) : ValidRefs m2 := by
  intro k st2 hl2 d hd
  obtain ⟨st1, hl1, hs⟩ := h.symm.lookup_some hl2
  have hdeps : st1.dependencies = st2.dependencies := by
    rw [← stripDependants_dependencies st1, ← hs, stripDependants_dependencies]
  rw [← h.containsKey_eq]
  exact hvr k st1 hl1 d (by rw [hdeps]; exact hd)

theorem getStack_key_of_mem {m : List (String × Stack)} (hkc : KeysConsistent m)
    {k : String} (hmem : k ∈ m.map Prod.fst) : (getStack m k).key = k := by
  obtain ⟨st, hst⟩ := exists_lookup_of_mem_fst hmem
  rw [getStack, hst]
  exact hkc k st hst

theorem lookup_getStack {m : List (String × Stack)} {k : String}
    (hmem : k ∈ m.map Prod.fst) : lookupStack m k = some (getStack m k) := by
  obtain ⟨st, hst⟩ := exists_lookup_of_mem_fst hmem
  rw [getStack, hst]
  rfl

theorem deserialize_go_ok_props (fuel : Nat) :
    ∀ (keysL : List String) (m mf : List (String × Stack)),
      KeysConsistent m →
      (∀ k ∈ keysL, k ∈ m.map Prod.fst) →
      deserialize_stacks_go fuel keysL m ∅ = .ok mf →
      DepEq m mf ∧ mf.map Prod.fst = m.map Prod.fst ∧
      (∀ k ∈ keysL, ¬ Walks mf k k ∧
        (∀ st, lookupStack mf k = some st →
          ∀ d ∈ st.dependencies, containsKey mf d = true)) := by
  intro keysL
  induction keysL with
  | nil =>
    intro m mf _ _ h
    cases h
    exact ⟨DepEq.refl m, rfl, fun k hk => absurd hk (List.not_mem_nil k)⟩
  | cons key rest ih =>
    intro m mf hkc hmem h
    have hkey : key ∈ m.map Prod.fst := hmem key (List.mem_cons_self key rest)
    have hlk : lookupStack m key = some (getStack m key) := lookup_getStack hkey
    have hgk : (getStack m key).key = key := getStack_key_of_mem hkc hkey
    cases hchk : checkDependencies m fuel (getStack m key) ∅ with
    | error e =>
      simp only [deserialize_stacks_go, hchk] at h
      cases h
    | ok seen1 =>
      have hseen : seen1 = ∅ :=
        checkDependencies_restore hkc fuel hchk (by simp)
      simp only [deserialize_stacks_go, hchk, hseen] at h
      set m2 := addDependantsFor m key (getStack m key).dependencies with hm2
      have hde : DepEq m m2 := depEq_addDependantsFor m key _
      have hfst : m2.map Prod.fst = m.map Prod.fst := addDependantsFor_map_fst m key _
      obtain ⟨hde2, hfst2, hrest⟩ := ih m2 mf (hde.keysConsistent hkc)
        (fun k hk => by rw [hfst]; exact hmem k (List.mem_cons_of_mem key hk)) h
      have hdemf : DepEq m mf := hde.trans hde2
      refine ⟨hdemf, by rw [hfst2, hfst], ?_⟩
      intro k hk
      rcases List.mem_cons.mp hk with rfl | hkrest
      · constructor
        · intro hw
          have hw2 : Walks m k k := (hdemf.walks_iff k k).mpr hw
          rw [← hgk] at hw2
          exact absurd rfl (checkDependencies_ok_no_walk hkc fuel hchk
            (by rw [hgk]; exact hlk) _ hw2).2
        · intro st hlst d hd
          obtain ⟨st1, hl1, hs1⟩ := hdemf.symm.lookup_some hlst
          rw [hlk] at hl1
          injection hl1 with he1
          have hdeps : st.dependencies = (getStack m k).dependencies := by
            rw [← stripDependants_dependencies st, hs1, he1,
              stripDependants_dependencies]
          cases fuel with
          | zero => exact absurd hchk (by simp [checkDependencies])
          | succ f =>
            simp only [checkDependencies] at hchk
            cases hlist : checkDepList m (checkDependencies m f)
                (getStack m k).key (getStack m k).dependencies
                (insert (getStack m k).key ∅) with
            | error e => rw [hlist] at hchk; cases hchk
            | ok sx =>
              have hforall := checkDepList_ok_forall hkc
                (fun _ _ _ hc hn => checkDependencies_restore hkc f hc hn) hlist
              obtain ⟨_, inner, hlinner, _⟩ := hforall d (by rw [← hdeps]; exact hd)
              rw [← hdemf.containsKey_eq]
              rw [containsKey_eq_isSome, hlinner]
              rfl
      · exact hrest k hkrest

theorem deserialize_ok_props {raw mf : List (String × Stack)}
    (h : deserialize_stacks raw = .ok mf) :
    mf.map Prod.fst = raw.map Prod.fst ∧ KeysConsistent mf ∧ ValidRefs mf ∧
    NoCycle mf ∧ DepEq (assignKeys raw) mf := by
  have hkc0 : KeysConsistent (assignKeys raw) := keysConsistent_assignKeys raw
  have hmem : ∀ k ∈ (assignKeys raw).map Prod.fst, k ∈ (assignKeys raw).map Prod.fst :=
    fun k hk => hk
  obtain ⟨hde, hfst, hall⟩ := deserialize_go_ok_props
    ((assignKeys raw).length + 1) ((assignKeys raw).map Prod.fst)
    (assignKeys raw) mf hkc0 hmem h
  have hfst2 : mf.map Prod.fst = raw.map Prod.fst := by
    rw [hfst, assignKeys_map_fst]
  refine ⟨hfst2, hde.keysConsistent hkc0, ?_, ?_, hde⟩
  · intro k st hl d hd
    have hk : k ∈ mf.map Prod.fst := mem_map_fst_of_lookup hl
    have hk2 : k ∈ (assignKeys raw).map Prod.fst := by rw [hfst] at hk; exact hk
    exact (hall k hk2).2 st hl d hd
  · intro a hw
    have ha : a ∈ mf.map Prod.fst := by
      cases hw with
      | single he => exact depEdge_mem_fst he
      | cons he _ => exact depEdge_mem_fst he
    rw [hfst] at ha
    exact (hall a ha).1 hw

theorem deserialize_go_cycle (fuel : Nat) :
    ∀ (keysL : List String) (m : List (String × Stack)) (a b : String),
      KeysConsistent m →
      (∀ k ∈ keysL, k ∈ m.map Prod.fst) →
      deserialize_stacks_go fuel keysL m ∅ = .error (.cycle a b) →
      depEdge m a b ∧ Walks m b a := by
  intro keysL
  induction keysL with
  | nil =>
    intro m a b _ _ h
    cases h
  | cons key rest ih =>
    intro m a b hkc hmem h
    have hkey : key ∈ m.map Prod.fst := hmem key (List.mem_cons_self key rest)
    have hlk : lookupStack m key = some (getStack m key) := lookup_getStack hkey
    have hgk : (getStack m key).key = key := getStack_key_of_mem hkc hkey
    cases hchk : checkDependencies m fuel (getStack m key) ∅ with
    | error e =>
      simp only [deserialize_stacks_go, hchk, Except.error.injEq] at h
      subst h
      exact checkDependencies_cycle_edge hkc fuel hchk (by rw [hgk]; exact hlk)
        (by intro x hx; cases hx)
    | ok seen1 =>
      have hseen : seen1 = ∅ :=
        checkDependencies_restore hkc fuel hchk (by simp)
      simp only [deserialize_stacks_go, hchk, hseen] at h
      have hde : DepEq m (addDependantsFor m key (getStack m key).dependencies) :=
        depEq_addDependantsFor m key _
      have hfst := addDependantsFor_map_fst m key (getStack m key).dependencies
      obtain ⟨he, hw⟩ := ih _ a b (hde.keysConsistent hkc)
        (fun k hk => by rw [hfst]; exact hmem k (List.mem_cons_of_mem key hk)) h
      exact ⟨(hde.depEdge_iff a b).mpr he, (hde.walks_iff b a).mpr hw⟩

theorem deserialize_go_no_unknown (fuel : Nat) :
    ∀ (keysL : List String) (m : List (String × Stack)) (d : String),
      KeysConsistent m → ValidRefs m →
      (∀ k ∈ keysL, k ∈ m.map Prod.fst) →
      deserialize_stacks_go fuel keysL m ∅ ≠ .error (.unknownDep d) := by
  intro keysL
  induction keysL with
  | nil =>
    intro m d _ _ _ h
    cases h
  | cons key rest ih =>
    intro m d hkc hvr hmem h
    have hkey : key ∈ m.map Prod.fst := hmem key (List.mem_cons_self key rest)
    have hlk : lookupStack m key = some (getStack m key) := lookup_getStack hkey
    have hgk : (getStack m key).key = key := getStack_key_of_mem hkc hkey
    cases hchk : checkDependencies m fuel (getStack m key) ∅ with
    | error e =>
      simp only [deserialize_stacks_go, hchk, Except.error.injEq] at h
      subst h
      exact checkDependencies_no_unknown hkc hvr fuel (by rw [hgk]; exact hlk) hchk
    | ok seen1 =>
      have hseen : seen1 = ∅ :=
        checkDependencies_restore hkc fuel hchk (by simp)
      simp only [deserialize_stacks_go, hchk, hseen] at h
      have hde : DepEq m (addDependantsFor m key (getStack m key).dependencies) :=
        depEq_addDependantsFor m key _
      have hfst := addDependantsFor_map_fst m key (getStack m key).dependencies
      exact ih _ d (hde.keysConsistent hkc) (hde.validRefs hvr)
        (fun k hk => by rw [hfst]; exact hmem k (List.mem_cons_of_mem key hk)) h

theorem deserialize_go_no_fuel (fuel : Nat) :
    ∀ (keysL : List String) (m : List (String × Stack)),
      KeysConsistent m →
      (∀ k ∈ keysL, k ∈ m.map Prod.fst) →
      ((m.map Prod.fst).toFinset.card < fuel) →
      deserialize_stacks_go fuel keysL m ∅ ≠ .error .outOfFuel := by
  intro keysL
  induction keysL with
  | nil =>
    intro m _ _ _ h
    cases h
  | cons key rest ih =>
    intro m hkc hmem hcard h
    have hkey : key ∈ m.map Prod.fst := hmem key (List.mem_cons_self key rest)
    have hlk : lookupStack m key = some (getStack m key) := lookup_getStack hkey
    have hgk : (getStack m key).key = key := getStack_key_of_mem hkc hkey
    cases hchk : checkDependencies m fuel (getStack m key) ∅ with
    | error e =>
      simp only [deserialize_stacks_go, hchk, Except.error.injEq] at h
      subst h
      refine checkDependencies_no_fuel hkc fuel (by rw [hgk]; exact hlk)
        (by simp) (Finset.empty_subset _) ?_ hchk
      simpa using hcard
    | ok seen1 =>
      have hseen : seen1 = ∅ :=
        checkDependencies_restore hkc fuel hchk (by simp)
      simp only [deserialize_stacks_go, hchk, hseen] at h
      have hde : DepEq m (addDependantsFor m key (getStack m key).dependencies) :=
        depEq_addDependantsFor m key _
      have hfst := addDependantsFor_map_fst m key (getStack m key).dependencies
      refine ih _ (hde.keysConsistent hkc)
        (fun k hk => by rw [hfst]; exact hmem k (List.mem_cons_of_mem key hk)) ?_ h
      rw [hfst]
      exact hcard

theorem deserialize_go_all_ok (fuel : Nat) :
    ∀ (keysL : List String) (m : List (String × Stack)),
      KeysConsistent m → ValidRefs m →
      (∀ k ∈ keysL, k ∈ m.map Prod.fst) →
      (∃ rank : String → Nat, ∀ a b, depEdge m a b → rank b < rank a) →
      ((m.map Prod.fst).toFinset.card < fuel) →
      ∃ mf, deserialize_stacks_go fuel keysL m ∅ = .ok mf := by
  intro keysL
  induction keysL with
  | nil =>
    intro m _ _ _ _ _
    exact ⟨m, rfl⟩
  | cons key rest ih =>
    intro m hkc hvr hmem hrank hcard
    obtain ⟨rank, hrk⟩ := hrank
    have hkey : key ∈ m.map Prod.fst := hmem key (List.mem_cons_self key rest)
    have hlk : lookupStack m key = some (getStack m key) := lookup_getStack hkey
    have hgk : (getStack m key).key = key := getStack_key_of_mem hkc hkey
    have hchk : checkDependencies m fuel (getStack m key) ∅ = .ok ∅ := by
      refine checkDependencies_all_ok hkc hvr hrk fuel (by rw [hgk]; exact hlk)
        (by simp) (Finset.empty_subset _) (by intro x hx; cases hx) ?_
      simpa using hcard
    have hde : DepEq m (addDependantsFor m key (getStack m key).dependencies) :=
      depEq_addDependantsFor m key _
    have hfst := addDependantsFor_map_fst m key (getStack m key).dependencies
    obtain ⟨mf, hmf⟩ := ih _ (hde.keysConsistent hkc) (hde.validRefs hvr)
      (fun k hk => by rw [hfst]; exact hmem k (List.mem_cons_of_mem key hk))
      ⟨rank, fun a b he => hrk a b ((hde.depEdge_iff a b).mpr he)⟩
      (by rw [hfst]; exact hcard)
    refine ⟨mf, ?_⟩
    simp only [deserialize_stacks_go, hchk]
    exact hmf

theorem containsKey_updateStack (m : List (String × Stack)) (k : String)
    (f : Stack → Stack) (a : String) :
    containsKey (updateStack m k f) a = containsKey m a := by
  rw [containsKey_eq_isSome, containsKey_eq_isSome, lookup_updateStack]
  by_cases ha : a = k
  · rw [if_pos ha]
    cases lookupStack m a <;> rfl
  · rw [if_neg ha]

theorem mem_dependants_addDependantsFor (key : String) :
    ∀ (deps : List String) (m : List (String × Stack)) (a b : String),
      b ∈ (getStack (addDependantsFor m key deps) a).dependants ↔
        (b ∈ (getStack m a).dependants ∨
          (b = key ∧ a ∈ deps ∧ containsKey m a = true)) := by
  intro deps
  induction deps with
  | nil =>
    intro m a b
    simp [addDependantsFor]
  | cons d rest ih =>
    intro m a b
    have hstep : addDependantsFor m key (d :: rest) =
        addDependantsFor (updateStack m d
          (fun s => { s with dependants := insertSorted key s.dependants }))
          key rest := rfl
    rw [hstep, ih]
    rw [containsKey_updateStack]
    by_cases had : a = d
    · subst had
      cases hla : lookupStack m a with
      | none =>
        have hck : containsKey m a = false := by
          rw [containsKey_eq_isSome, hla]
          rfl
        have hg1 : getStack (updateStack m a
            (fun s => { s with dependants := insertSorted key s.dependants })) a
            = default := by
          rw [getStack, lookup_updateStack, if_pos rfl, hla]
          rfl
        have hg2 : getStack m a = default := by rw [getStack, hla]; rfl
        rw [hg1, hg2, hck]
        simp
      | some st =>
        have hck : containsKey m a = true := by
          rw [containsKey_eq_isSome, hla]
          rfl
        have hg1 : getStack (updateStack m a
            (fun s => { s with dependants := insertSorted key s.dependants })) a
            = { st with dependants := insertSorted key st.dependants } := by
          rw [getStack, lookup_updateStack, if_pos rfl, hla]
          rfl
        have hg2 : getStack m a = st := by rw [getStack, hla]; rfl
        rw [hg1, hg2, hck]
        simp only [mem_insertSorted, List.mem_cons]
        tauto
    · have hg1 : getStack (updateStack m d
          (fun s => { s with dependants := insertSorted key s.dependants })) a
          = getStack m a := by
        rw [getStack, lookup_updateStack, if_neg had]
        rfl
      rw [hg1]
      constructor
      · rintro (hmem | ⟨rfl, hrest, hck⟩)
        · exact Or.inl hmem
        · exact Or.inr ⟨rfl, List.mem_cons_of_mem d hrest, hck⟩
      · rintro (hmem | ⟨rfl, hcons, hck⟩)
        · exact Or.inl hmem
        · rcases List.mem_cons.mp hcons with heq | hrest
          · exact absurd heq had
          · exact Or.inr ⟨rfl, hrest, hck⟩

theorem deserialize_go_dependants (fuel : Nat) :
    ∀ (keysL : List String) (m mf : List (String × Stack)),
      KeysConsistent m →
      (∀ k ∈ keysL, k ∈ m.map Prod.fst) →
      deserialize_stacks_go fuel keysL m ∅ = .ok mf →
      ∀ a b, b ∈ (getStack mf a).dependants ↔
        (b ∈ (getStack m a).dependants ∨
          (b ∈ keysL ∧ a ∈ (getStack m b).dependencies ∧
            containsKey m a = true)) := by
  intro keysL
  induction keysL with
  | nil =>
    intro m mf _ _ h a b
    cases h
    simp
  | cons key rest ih =>
    intro m mf hkc hmem h a b
    have hkey : key ∈ m.map Prod.fst := hmem key (List.mem_cons_self key rest)
    cases hchk : checkDependencies m fuel (getStack m key) ∅ with
    | error e =>
      simp only [deserialize_stacks_go, hchk] at h
      cases h
    | ok seen1 =>
      have hseen : seen1 = ∅ :=
        checkDependencies_restore hkc fuel hchk (by simp)
      simp only [deserialize_stacks_go, hchk, hseen] at h
      have hde : DepEq m (addDependantsFor m key (getStack m key).dependencies) :=
        depEq_addDependantsFor m key _
      have hfst := addDependantsFor_map_fst m key (getStack m key).dependencies
      have hih := ih _ mf (hde.keysConsistent hkc)
        (fun k hk => by rw [hfst]; exact hmem k (List.mem_cons_of_mem key hk)) h a b
      rw [hih, mem_dependants_addDependantsFor,
        ← hde.getStack_dependencies b, ← hde.containsKey_eq a]
      constructor
      · rintro ((hmem2 | ⟨rfl, hdeps, hck⟩) | ⟨hr, hdeps, hck⟩)
        · exact Or.inl hmem2
        · exact Or.inr ⟨List.mem_cons_self _ _, hdeps, hck⟩
        · exact Or.inr ⟨List.mem_cons_of_mem key hr, hdeps, hck⟩
      · rintro (hmem2 | ⟨hbc, hdeps, hck⟩)
        · exact Or.inl (Or.inl hmem2)
        · rcases List.mem_cons.mp hbc with rfl | hr
          · exact Or.inl (Or.inr ⟨rfl, hdeps, hck⟩)
          · exact Or.inr ⟨hr, hdeps, hck⟩

theorem getStack_assignKeys_dependants (raw : List (String × Stack)) (a : String) :
    (getStack (assignKeys raw) a).dependants = [] := by
  rw [getStack, lookup_assignKeys]
  cases lookupStack raw a <;> rfl

theorem walks_iff_of_edge_iff {m1 m2 : List (String × Stack)}
    (h : ∀ a b, depEdge m1 a b ↔ depEdge m2 a b) (a b : String) :
    Walks m1 a b ↔ Walks m2 a b := by
  constructor
  · intro hw
    induction hw with
    | single he => exact Walks.single ((h _ _).mp he)
    | cons he _ ih => exact Walks.cons ((h _ _).mp he) ih
  · intro hw
    induction hw with
    | single he => exact Walks.single ((h _ _).mpr he)
    | cons he _ ih => exact Walks.cons ((h _ _).mpr he) ih

theorem depEdge_assignKeys (raw : List (String × Stack)) (a b : String) :
    depEdge (assignKeys raw) a b ↔ depEdge raw a b := by
  constructor
  · rintro ⟨st, hl, hb⟩
    rw [lookup_assignKeys] at hl
    cases hraw : lookupStack raw a with
    | none => rw [hraw] at hl; cases hl
    | some st0 =>
      rw [hraw] at hl
      simp only [Option.map_some', Option.some.injEq] at hl
      subst hl
      exact ⟨st0, hraw, hb⟩
  · rintro ⟨st, hl, hb⟩
    have hlook : lookupStack (assignKeys raw) a = some
        { st with key := a
                  name := (if st.name = "" then a else st.name)
                  dependants := [] } := by
      rw [lookup_assignKeys, hl]
      rfl
    exact ⟨_, hlook, hb⟩

theorem rank_edges_of_list {raw : List (String × Stack)} {rank : String → Nat}
    (h : ∀ p ∈ raw, ∀ d ∈ p.2.dependencies, rank d < rank p.1) :
    ∀ a b, depEdge raw a b → rank b < rank a := by
  rintro a b ⟨st, hl, hb⟩
  exact h (a, st) (lookupStack_mem hl) b hb

theorem validRefs_assignKeys {raw : List (String × Stack)}
    (hvr : ∀ p ∈ raw, ∀ d ∈ p.2.dependencies, containsKey raw d = true) :
    ValidRefs (assignKeys raw) := by
  intro k st hl d hd
  rw [lookup_assignKeys] at hl
  cases hraw : lookupStack raw k with
  | none => rw [hraw] at hl; cases hl
  | some st0 =>
    rw [hraw] at hl
    simp only [Option.map_some', Option.some.injEq] at hl
    subst hl
    have hck : containsKey raw d = true := hvr (k, st0) (lookupStack_mem hraw) d hd
    rw [containsKey_iff_mem] at hck ⊢
    rw [assignKeys_map_fst]
    exact hck

/-- C7: inverse-index invariant. For every reference-valid and acyclic raw
configuration the load succeeds, preserves the key set, and afterwards, for
all stacks `a` and `b` of the configuration, `b` appears in `a`'s
`dependants` if and only if `a` appears in `b`'s `dependencies`. The index
is computed by the (pure) load function alone; every subsequent operation in
this development reads the map without producing a modified one. -/
theorem deserialize_inverse_index (raw : List (String × Stack))
    (hvr : ∀ p ∈ raw, ∀ d ∈ p.2.dependencies, containsKey raw d = true)
    (hnc : NoCycle raw) :
    ∃ mf, deserialize_stacks raw = .ok mf ∧
      mf.map Prod.fst = raw.map Prod.fst ∧
      ∀ a b, containsKey mf a = true → containsKey mf b = true →
        (b ∈ (getStack mf a).dependants ↔ a ∈ (getStack mf b).dependencies) := by
  have hkc0 : KeysConsistent (assignKeys raw) := keysConsistent_assignKeys raw
  have hvr0 : ValidRefs (assignKeys raw) := validRefs_assignKeys hvr
  have hnc0 : NoCycle (assignKeys raw) := by
    intro a hw
    exact hnc a ((walks_iff_of_edge_iff (depEdge_assignKeys raw) a a).mp hw)
  obtain ⟨rank, hrk⟩ := exists_rank_of_noCycle hnc0
  obtain ⟨mf, hmf⟩ := deserialize_go_all_ok ((assignKeys raw).length + 1)
    ((assignKeys raw).map Prod.fst) (assignKeys raw) hkc0 hvr0 (fun k hk => hk)
    ⟨rank, hrk⟩
    (lt_of_le_of_lt (le_trans (List.toFinset_card_le _)
      (le_of_eq (List.length_map _ _))) (Nat.lt_succ_self _))
  have hds : deserialize_stacks raw = .ok mf := hmf
  obtain ⟨hfst, hkcf, hvrf, hncf, hdef⟩ := deserialize_ok_props hds
  refine ⟨mf, hds, hfst, ?_⟩
  intro a b hca hcb
  have hdep := deserialize_go_dependants ((assignKeys raw).length + 1)
    ((assignKeys raw).map Prod.fst) (assignKeys raw) mf hkc0 (fun k hk => hk)
    hmf a b
  rw [getStack_assignKeys_dependants] at hdep
  have hckm0 : containsKey (assignKeys raw) a = true := by
    rw [hdef.containsKey_eq a]
    exact hca
  have hbkeys : b ∈ (assignKeys raw).map Prod.fst := by
    rw [assignKeys_map_fst, ← hfst]
    rw [containsKey_iff_mem] at hcb
    exact hcb
  rw [hdep, hdef.getStack_dependencies b]
  simp [hbkeys, hckm0]

/-- Scenario-A rank function used to discharge acyclicity concretely. -/
def rankA : String → Nat :=
  fun k => if k = "foo" then 2 else if k = "bar" then 1 else 0

/-- Witness for C7 at scenario A: the load succeeds and the dependants index
is the inverse of the declared dependencies. -/
theorem deserialize_inverse_index_witness :
    ∃ mf, deserialize_stacks rawA = .ok mf ∧
      mf.map Prod.fst = rawA.map Prod.fst ∧
      ∀ a b, containsKey mf a = true → containsKey mf b = true →
        (b ∈ (getStack mf a).dependants ↔ a ∈ (getStack mf b).dependencies) :=
  deserialize_inverse_index rawA (by decide)
    (noCycle_of_rank (rank_edges_of_list
      (by decide : ∀ p ∈ rawA, ∀ d ∈ p.2.dependencies, rankA d < rankA p.1)))

/-- Raw configuration with both a dependency cycle (`a` → `c` → `a`) and a
dangling dependency `b0` that the depth-first check visits first. -/
def rawCycDangling : List (String × Stack) :=
  [("a", { key := "", name := "", directory := none, file := none,
           dependencies := ["b0", "c"], dependants := [], environment := [] }),
   ("c", { key := "", name := "", directory := none, file := none,
           dependencies := ["a"], dependants := [], environment := [] })]

/-- C6 as stated fails: this raw configuration's declared edges contain the
directed cycle `a → c → a`, yet the load fails with the dangling-dependency
error for `b0` (encountered first in the depth-first scan), not with a
DependencyCycle error. -/
theorem deserialize_cycle_claim_false :
    Walks rawCycDangling "a" "a" ∧
    deserialize_stacks rawCycDangling = .error (.unknownDep "b0") ∧
    (∀ k d, CheckErr.unknownDep "b0" ≠ CheckErr.cycle k d) := by
  refine ⟨?_, by rfl, by intro k d h; cases h⟩
  have e1 : depEdge rawCycDangling "a" "c" := ⟨_, rfl, by decide⟩
  have e2 : depEdge rawCycDangling "c" "a" := ⟨_, by rfl, by decide⟩
  exact Walks.cons e1 (Walks.single e2)

/-- C6 (amended): for every reference-valid raw configuration whose declared
dependency edges contain a directed cycle (self-referential or multi-hop),
the load fails with a DependencyCycle error, rendered as
`invalid dependency cycle: "<key>" cannot depend on "<dep>"`, and the named
edge lies on a cycle: it is a declared edge `a → b` together with a walk
from `b` back to `a`. No configuration is produced. -/
theorem deserialize_cyclic_fails (raw : List (String × Stack))
    (hvr : ∀ p ∈ raw, ∀ d ∈ p.2.dependencies, containsKey raw d = true)
    (hcyc : ∃ k, Walks raw k k) :
    ∃ a b, deserialize_stacks raw = .error (.cycle a b) ∧
      renderCheckErr (.cycle a b) =
        "invalid dependency cycle: \"" ++ a ++ "\" cannot depend on \"" ++ b
          ++ "\"" ∧
      depEdge raw a b ∧ Walks raw b a := by
  have hkc0 : KeysConsistent (assignKeys raw) := keysConsistent_assignKeys raw
  have hvr0 : ValidRefs (assignKeys raw) := validRefs_assignKeys hvr
  obtain ⟨k0, hk0⟩ := hcyc
  cases hres : deserialize_stacks raw with
  | ok mf =>
    exfalso
    obtain ⟨hfst, hkcf, hvrf, hncf, hdef⟩ := deserialize_ok_props hres
    have hw0 : Walks (assignKeys raw) k0 k0 :=
      (walks_iff_of_edge_iff (depEdge_assignKeys raw) k0 k0).mpr hk0
    exact hncf k0 ((hdef.walks_iff k0 k0).mp hw0)
  | error e =>
    have hgo : deserialize_stacks_go ((assignKeys raw).length + 1)
        ((assignKeys raw).map Prod.fst) (assignKeys raw) ∅ = .error e := hres
    cases e with
    | cycle a b =>
      obtain ⟨he, hw⟩ := deserialize_go_cycle _ _ _ a b hkc0 (fun k hk => hk) hgo
      refine ⟨a, b, rfl, rfl, (depEdge_assignKeys raw a b).mp he, ?_⟩
      exact (walks_iff_of_edge_iff (depEdge_assignKeys raw) b a).mp hw
    | unknownDep d =>
      exact absurd hgo (deserialize_go_no_unknown _ _ _ d hkc0 hvr0 (fun k hk => hk))
    | outOfFuel =>
      exact absurd hgo (deserialize_go_no_fuel _ _ _ hkc0 (fun k hk => hk)
        (lt_of_le_of_lt (le_trans (List.toFinset_card_le _)
          (le_of_eq (List.length_map _ _))) (Nat.lt_succ_self _)))

/-- Raw two-stack cyclic configuration (`baz` ↔ `foo`). -/
def rawCycAB : List (String × Stack) :=
  [("baz", { key := "", name := "", directory := none, file := none,
             dependencies := ["foo"], dependants := [], environment := [] }),
   ("foo", { key := "", name := "", directory := none, file := none,
             dependencies := ["baz"], dependants := [], environment := [] })]

/-- Witness for C6 (amended): the two-stack cycle fails to load with a
DependencyCycle error naming an edge on the cycle. -/
theorem deserialize_cyclic_fails_witness :
    ∃ a b, deserialize_stacks rawCycAB = .error (.cycle a b) ∧
      renderCheckErr (.cycle a b) =
        "invalid dependency cycle: \"" ++ a ++ "\" cannot depend on \"" ++ b
          ++ "\"" ∧
      depEdge rawCycAB a b ∧ Walks rawCycAB b a := by
  refine deserialize_cyclic_fails rawCycAB (by decide) ⟨"baz", ?_⟩
  have e1 : depEdge rawCycAB "baz" "foo" := ⟨_, rfl, by decide⟩
  have e2 : depEdge rawCycAB "foo" "baz" := ⟨_, by rfl, by decide⟩
  exact Walks.cons e1 (Walks.single e2)

/-! ### Correctness of the closure expansion -/

/-- Validity of an edge set: every edge of every key leads to a key. -/
def EdgesValid (edgeOf : Stack → List String) (m : List (String × Stack)) : Prop :=
  ∀ k ∈ m.map Prod.fst, ∀ d ∈ edgeOf (getStack m k), d ∈ m.map Prod.fst

theorem toFinset_insertSorted (x : String) (l : List String) :
    (insertSorted x l).toFinset = insert x l.toFinset := by
  ext a
  simp [mem_insertSorted]

theorem addEdgeList_mono
    {recur : String → List String → List String}
    (hrec : ∀ s keys, keys ⊆ recur s keys) :
    ∀ (list keys : List String), keys ⊆ addEdgeList recur list keys := by
  intro list
  induction list with
  | nil => intro keys; exact fun a ha => ha
  | cons d rest ih =>
    intro keys
    by_cases hd : d ∈ keys
    · simp only [addEdgeList, hd, if_true]
      exact ih keys
    · simp only [addEdgeList, hd, if_false]
      intro a ha
      exact ih _ (hrec d (insertSorted d keys) (mem_insertSorted.mpr (Or.inr ha)))

theorem add_closure_keys_mono (edgeOf : Stack → List String)
    (m : List (String × Stack)) :
    ∀ (fuel : Nat) (stack : String) (keys : List String),
      keys ⊆ add_closure_keys edgeOf m fuel stack keys := by
  intro fuel
  induction fuel with
  | zero => intro stack keys a ha; exact ha
  | succ fuel ih =>
    intro stack keys
    exact addEdgeList_mono (fun s ks => ih s ks) _ keys

theorem addEdgeList_sorted
    {recur : String → List String → List String}
    (hrec : ∀ s keys, SortedKeys keys → SortedKeys (recur s keys)) :
    ∀ (list keys : List String), SortedKeys keys →
      SortedKeys (addEdgeList recur list keys) := by
  intro list
  induction list with
  | nil => intro keys h; exact h
  | cons d rest ih =>
    intro keys h
    by_cases hd : d ∈ keys
    · simp only [addEdgeList, hd, if_true]
      exact ih keys h
    · simp only [addEdgeList, hd, if_false]
      exact ih _ (hrec d _ (pairwise_insertSorted h))

theorem add_closure_keys_sorted (edgeOf : Stack → List String)
    (m : List (String × Stack)) :
    ∀ (fuel : Nat) (stack : String) (keys : List String),
      SortedKeys keys → SortedKeys (add_closure_keys edgeOf m fuel stack keys) := by
  intro fuel
  induction fuel with
  | zero => intro stack keys h; exact h
  | succ fuel ih =>
    intro stack keys h
    exact addEdgeList_sorted (fun s ks hs => ih s ks hs) _ keys h

theorem addEdgeList_sat (edgeOf : Stack → List String)
    (m : List (String × Stack)) (f : Nat)
    (IH : ∀ (stack : String) (keys : List String), stack ∈ m.map Prod.fst →
      (∀ k ∈ keys, k ∈ m.map Prod.fst) →
      ((m.map Prod.fst).toFinset \ keys.toFinset).card < f →
      (∀ d ∈ edgeOf (getStack m stack), d ∈ add_closure_keys edgeOf m f stack keys) ∧
      (∀ k ∈ add_closure_keys edgeOf m f stack keys,
        k ∈ keys ∨ ∀ d ∈ edgeOf (getStack m k), d ∈ add_closure_keys edgeOf m f stack keys) ∧
      (∀ k ∈ add_closure_keys edgeOf m f stack keys, k ∈ m.map Prod.fst)) :
    ∀ (list keys : List String), (∀ d ∈ list, d ∈ m.map Prod.fst) →
      (∀ k ∈ keys, k ∈ m.map Prod.fst) →
      ((m.map Prod.fst).toFinset \ keys.toFinset).card < f + 1 →
      (∀ d ∈ list, d ∈ addEdgeList (add_closure_keys edgeOf m f) list keys) ∧
      (∀ k ∈ addEdgeList (add_closure_keys edgeOf m f) list keys,
        k ∈ keys ∨ ∀ d ∈ edgeOf (getStack m k),
          d ∈ addEdgeList (add_closure_keys edgeOf m f) list keys) ∧
      (∀ k ∈ addEdgeList (add_closure_keys edgeOf m f) list keys,
        k ∈ m.map Prod.fst) := by
  intro list
  induction list with
  | nil =>
    intro keys _ hkeys _
    refine ⟨fun d hd => absurd hd (List.not_mem_nil d), ?_, ?_⟩
    · intro k hk
      exact Or.inl hk
    · intro k hk
      exact hkeys k hk
  | cons d rest ih =>
    intro keys hlist hkeys hcard
    have hdu : d ∈ m.map Prod.fst := hlist d (List.mem_cons_self d rest)
    by_cases hd : d ∈ keys
    · simp only [addEdgeList, hd, if_true]
      obtain ⟨h1, h2, h3⟩ := ih keys
        (fun x hx => hlist x (List.mem_cons_of_mem d hx)) hkeys hcard
      refine ⟨?_, h2, h3⟩
      intro x hx
      rcases List.mem_cons.mp hx with rfl | hx2
      · exact addEdgeList_mono (fun s ks => add_closure_keys_mono edgeOf m f s ks)
          rest keys hd
      · exact h1 x hx2
    · simp only [addEdgeList, hd, if_false]
      have hk1 : ∀ k ∈ insertSorted d keys, k ∈ m.map Prod.fst := by
        intro k hk
        rcases mem_insertSorted.mp hk with rfl | hk2
        · exact hdu
        · exact hkeys k hk2
      have hddiff : d ∈ (m.map Prod.fst).toFinset \ keys.toFinset :=
        Finset.mem_sdiff.mpr ⟨List.mem_toFinset.mpr hdu,
          fun hmem => hd (List.mem_toFinset.mp hmem)⟩
      have hcard1 : ((m.map Prod.fst).toFinset \ (insertSorted d keys).toFinset).card
          < f := by
        rw [toFinset_insertSorted, Finset.sdiff_insert,
          Finset.card_erase_of_mem hddiff]
        have hpos : 0 < ((m.map Prod.fst).toFinset \ keys.toFinset).card :=
          Finset.card_pos.mpr ⟨d, hddiff⟩
        omega
      obtain ⟨ha1, ha2, ha3⟩ := IH d (insertSorted d keys) hdu hk1 hcard1
      have hcard2 : ((m.map Prod.fst).toFinset \
          (add_closure_keys edgeOf m f d (insertSorted d keys)).toFinset).card
          < f + 1 := by
        refine lt_of_le_of_lt (Finset.card_le_card
          (Finset.sdiff_subset_sdiff (le_refl _) ?_)) (Nat.lt_succ_of_lt hcard1)
        intro x hx
        exact List.mem_toFinset.mpr (add_closure_keys_mono edgeOf m f d _
          (List.mem_toFinset.mp hx))
      obtain ⟨h1, h2, h3⟩ := ih (add_closure_keys edgeOf m f d (insertSorted d keys))
        (fun x hx => hlist x (List.mem_cons_of_mem d hx)) ha3 hcard2
      have hsubr : ∀ x ∈ add_closure_keys edgeOf m f d (insertSorted d keys),
          x ∈ addEdgeList (add_closure_keys edgeOf m f) rest
            (add_closure_keys edgeOf m f d (insertSorted d keys)) :=
        fun x hx => addEdgeList_mono
          (fun s ks => add_closure_keys_mono edgeOf m f s ks) rest _ hx
      refine ⟨?_, ?_, h3⟩
      · intro x hx
        rcases List.mem_cons.mp hx with rfl | hx2
        · exact hsubr x (add_closure_keys_mono edgeOf m f x _
            (mem_insertSorted.mpr (Or.inl rfl)))
        · exact h1 x hx2
      · intro k hk
        rcases h2 k hk with hk1 | hk2
        · rcases ha2 k hk1 with hk3 | hk4
          · rcases mem_insertSorted.mp hk3 with rfl | hk5
            · exact Or.inr (fun e he => hsubr e (ha1 e he))
            · exact Or.inl hk5
          · exact Or.inr (fun e he => hsubr e (hk4 e he))
        · exact Or.inr hk2

theorem add_closure_keys_sat (edgeOf : Stack → List String)
    (m : List (String × Stack)) (hvalid : EdgesValid edgeOf m) :
    ∀ (fuel : Nat) (stack : String) (keys : List String),
      stack ∈ m.map Prod.fst →
      (∀ k ∈ keys, k ∈ m.map Prod.fst) →
      ((m.map Prod.fst).toFinset \ keys.toFinset).card < fuel →
      (∀ d ∈ edgeOf (getStack m stack),
        d ∈ add_closure_keys edgeOf m fuel stack keys) ∧
      (∀ k ∈ add_closure_keys edgeOf m fuel stack keys,
        k ∈ keys ∨ ∀ d ∈ edgeOf (getStack m k),
          d ∈ add_closure_keys edgeOf m fuel stack keys) ∧
      (∀ k ∈ add_closure_keys edgeOf m fuel stack keys, k ∈ m.map Prod.fst) := by
  intro fuel
  induction fuel with
  | zero =>
    intro stack keys _ _ hcard
    exact absurd hcard (Nat.not_lt_zero _)
  | succ f ih =>
    intro stack keys hstack hkeys hcard
    exact addEdgeList_sat edgeOf m f (fun s ks hs hk hc => ih s ks hs hk hc)
      (edgeOf (getStack m stack)) keys (fun d hd => hvalid stack hstack d hd)
      hkeys hcard

theorem addEdgeList_sound (edgeOf : Stack → List String)
    (m : List (String × Stack)) {Cl : String → Prop}
    (f : Nat)
    (IH : ∀ (s : String) (keys : List String), Cl s → (∀ k ∈ keys, Cl k) →
      ∀ k ∈ add_closure_keys edgeOf m f s keys, Cl k) :
    ∀ (list keys : List String), (∀ d ∈ list, Cl d) → (∀ k ∈ keys, Cl k) →
      ∀ k ∈ addEdgeList (add_closure_keys edgeOf m f) list keys, Cl k := by
  intro list
  induction list with
  | nil => intro keys _ hkeys k hk; exact hkeys k hk
  | cons d rest ih =>
    intro keys hlist hkeys k hk
    have hdCl : Cl d := hlist d (List.mem_cons_self d rest)
    by_cases hd : d ∈ keys
    · simp only [addEdgeList, hd, if_true] at hk
      exact ih keys (fun x hx => hlist x (List.mem_cons_of_mem d hx)) hkeys k hk
    · simp only [addEdgeList, hd, if_false] at hk
      have hkeys1 : ∀ x ∈ insertSorted d keys, Cl x := by
        intro x hx
        rcases mem_insertSorted.mp hx with rfl | hx2
        · exact hdCl
        · exact hkeys x hx2
      exact ih _ (fun x hx => hlist x (List.mem_cons_of_mem d hx))
        (IH d (insertSorted d keys) hdCl hkeys1) k hk

theorem add_closure_keys_sound (edgeOf : Stack → List String)
    (m : List (String × Stack)) {Cl : String → Prop}
    (hCl : ∀ k, Cl k → ∀ d ∈ edgeOf (getStack m k), Cl d) :
    ∀ (fuel : Nat) (s : String) (keys : List String), Cl s →
      (∀ k ∈ keys, Cl k) → ∀ k ∈ add_closure_keys edgeOf m fuel s keys, Cl k := by
  intro fuel
  induction fuel with
  | zero => intro s keys _ hkeys k hk; exact hkeys k hk
  | succ f ih =>
    intro s keys hs hkeys k hk
    exact addEdgeList_sound edgeOf m f (fun s2 ks hs2 hk2 => ih s2 ks hs2 hk2)
      _ keys (fun d hd => hCl s hs d hd) hkeys k hk

theorem expand_fold_props (edgeOf : Stack → List String)
    (m : List (String × Stack)) (hvalid : EdgesValid edgeOf m) (R : List String) :
    ∀ (roots : List String) (ks : List String),
      (∀ r ∈ roots, r ∈ R) → (∀ r ∈ R, r ∈ m.map Prod.fst) →
      SortedKeys ks → (∀ k ∈ ks, k ∈ m.map Prod.fst) → (∀ r ∈ R, r ∈ ks) →
      (∀ k ∈ ks, k ∈ R ∨ ∀ d ∈ edgeOf (getStack m k),
        d ∈ ks → True) →
      let r := roots.foldl
        (fun acc k => add_closure_keys edgeOf m (m.length + 1) k acc) ks
      (∀ k ∈ ks, k ∈ r) ∧ SortedKeys r ∧ (∀ k ∈ r, k ∈ m.map Prod.fst) ∧
      (∀ k ∈ r, k ∈ ks ∨ ∀ d ∈ edgeOf (getStack m k), d ∈ r) ∧
      (∀ root ∈ roots, ∀ d ∈ edgeOf (getStack m root), d ∈ r) := by
  intro roots
  induction roots with
  | nil =>
    intro ks _ _ hsort huniv hR _
    exact ⟨fun k hk => hk, hsort, huniv, fun k hk => Or.inl hk,
      fun r hr => absurd hr (List.not_mem_nil r)⟩
  | cons root rest ih =>
    intro ks hroots hRuniv hsort huniv hR _
    have hrootR : root ∈ R := hroots root (List.mem_cons_self root rest)
    have hrootU : root ∈ m.map Prod.fst := hRuniv root hrootR
    have hcard : ((m.map Prod.fst).toFinset \ ks.toFinset).card < m.length + 1 := by
      have h1 : ((m.map Prod.fst).toFinset \ ks.toFinset).card ≤
          (m.map Prod.fst).toFinset.card :=
        Finset.card_le_card (Finset.sdiff_subset)
      have h2 : (m.map Prod.fst).toFinset.card ≤ (m.map Prod.fst).length :=
        List.toFinset_card_le _
      have h3 : (m.map Prod.fst).length = m.length := List.length_map _ _
      omega
    obtain ⟨hb, hc, hu⟩ := add_closure_keys_sat edgeOf m hvalid (m.length + 1)
      root ks hrootU huniv hcard
    have hmono := add_closure_keys_mono edgeOf m (m.length + 1) root ks
    obtain ⟨ih1, ih2, ih3, ih4, ih5⟩ := ih
      (add_closure_keys edgeOf m (m.length + 1) root ks)
      (fun r hr => hroots r (List.mem_cons_of_mem root hr)) hRuniv
      (add_closure_keys_sorted edgeOf m (m.length + 1) root ks hsort) hu
      (fun r hr => hmono (hR r hr)) (fun k _ => Or.inr (fun d _ hd => trivial))
    refine ⟨fun k hk => ih1 k (hmono hk), ih2, ih3, ?_, ?_⟩
    · intro k hk
      rcases ih4 k hk with hk1 | hk2
      · rcases hc k hk1 with hk3 | hk4
        · exact Or.inl hk3
        · exact Or.inr (fun d hd => ih1 d (hk4 d hd))
      · exact Or.inr hk2
    · intro r hr
      rcases List.mem_cons.mp hr with rfl | hr2
      · exact fun d hd => ih1 d (hb d hd)
      · exact ih5 r hr2

theorem nodup_length_le_of_subset {l keys : List String}
    (hnl : l.Nodup) (hnk : keys.Nodup) (hsub : ∀ k ∈ l, k ∈ keys) :
    l.length ≤ keys.length := by
  have h1 : l.toFinset.card = l.length := List.toFinset_card_of_nodup hnl
  have h2 : keys.toFinset.card = keys.length := List.toFinset_card_of_nodup hnk
  have h3 : l.toFinset ⊆ keys.toFinset := by
    intro x hx
    exact List.mem_toFinset.mpr (hsub x (List.mem_toFinset.mp hx))
  have := Finset.card_le_card h3
  omega

theorem mem_iff_of_nodup_subset_length {l keys : List String}
    (hnl : l.Nodup) (hnk : keys.Nodup) (hsub : ∀ k ∈ l, k ∈ keys)
    (hlen : keys.length ≤ l.length) : ∀ k, k ∈ l ↔ k ∈ keys := by
  have h1 : l.toFinset.card = l.length := List.toFinset_card_of_nodup hnl
  have h2 : keys.toFinset.card = keys.length := List.toFinset_card_of_nodup hnk
  have h3 : l.toFinset ⊆ keys.toFinset := by
    intro x hx
    exact List.mem_toFinset.mpr (hsub x (List.mem_toFinset.mp hx))
  have h4 : l.toFinset = keys.toFinset :=
    Finset.eq_of_subset_of_card_le h3 (by omega)
  intro k
  rw [← List.mem_toFinset, ← List.mem_toFinset (l := keys), h4]

theorem expand_fold_sound (edgeOf : Stack → List String)
    (m : List (String × Stack)) (Cl : String → Prop)
    (hCl : ∀ k, Cl k → ∀ d ∈ edgeOf (getStack m k), Cl d) :
    ∀ (roots ks : List String), (∀ r ∈ roots, Cl r) → (∀ k ∈ ks, Cl k) →
      ∀ k ∈ roots.foldl
        (fun acc k => add_closure_keys edgeOf m (m.length + 1) k acc) ks, Cl k := by
  intro roots
  induction roots with
  | nil => intro ks _ hks k hk; exact hks k hk
  | cons root rest ih =>
    intro ks hroots hks k hk
    exact ih _ (fun r hr => hroots r (List.mem_cons_of_mem root hr))
      (add_closure_keys_sound edgeOf m hCl (m.length + 1) root ks
        (hroots root (List.mem_cons_self root rest)) hks) k hk

theorem expandSelection_spec (edgeOf : Stack → List String)
    (m : List (String × Stack)) (R : List String)
    (hvalid : EdgesValid edgeOf m)
    (hsorted : SortedKeys R) (hRuniv : ∀ k ∈ R, k ∈ m.map Prod.fst)
    (hsortU : SortedKeys (m.map Prod.fst)) :
    (∀ k, k ∈ expandSelection edgeOf m R ↔ EdgeClosure edgeOf m R k) ∧
    SortedKeys (expandSelection edgeOf m R) ∧
    (∀ k ∈ expandSelection edgeOf m R, k ∈ m.map Prod.fst) := by
  have hndU : (m.map Prod.fst).Nodup := sortedKeys_nodup hsortU
  have hndR : R.Nodup := sortedKeys_nodup hsorted
  by_cases hlen : R.length < m.length
  · have hexp : expandSelection edgeOf m R = R.foldl
        (fun acc k => add_closure_keys edgeOf m (m.length + 1) k acc) R := by
      rw [expandSelection, if_pos hlen]
    obtain ⟨e1, e2, e3, e4, e5⟩ := expand_fold_props edgeOf m hvalid R R R
      (fun r hr => hr) hRuniv hsorted hRuniv (fun r hr => hr)
      (fun k _ => Or.inr (fun d _ hd => trivial))
    rw [hexp]
    refine ⟨?_, e2, e3⟩
    intro k
    constructor
    · intro hk
      refine expand_fold_sound edgeOf m (EdgeClosure edgeOf m R) ?_ R R
        (fun r hr => EdgeClosure.base r hr) (fun r hr => EdgeClosure.base r hr)
        k hk
      intro x hx d hd
      exact EdgeClosure.step x d hx hd
    · intro hcl
      induction hcl with
      | base k2 hk2 => exact e1 k2 hk2
      | step k2 d hk2 hd ih2 =>
        rcases e4 k2 ih2 with hk3 | hk4
        · exact e5 k2 hk3 d hd
        · exact hk4 d hd
  · have hexp : expandSelection edgeOf m R = R := by
      rw [expandSelection, if_neg hlen]
    have hiff : ∀ k, k ∈ R ↔ k ∈ m.map Prod.fst := by
      refine mem_iff_of_nodup_subset_length hndR hndU hRuniv ?_
      have hml : (m.map Prod.fst).length = m.length := List.length_map _ _
      omega
    rw [hexp]
    refine ⟨?_, hsorted, hRuniv⟩
    intro k
    constructor
    · intro hk
      exact EdgeClosure.base k hk
    · intro hcl
      induction hcl with
      | base k2 hk2 => exact hk2
      | step k2 d hk2 hd ih2 =>
        exact (hiff d).mpr (hvalid k2 ((hiff k2).mp ih2) d hd)

theorem stack_keys_go_props (m : List (String × Stack))
    (hsortU : SortedKeys (m.map Prod.fst)) :
    ∀ (list acc R : List String), SortedKeys acc →
      (∀ k ∈ acc, k ∈ m.map Prod.fst) →
      stack_keys_go m list acc = .ok R →
      SortedKeys R ∧ ∀ k ∈ R, k ∈ m.map Prod.fst := by
  intro list
  induction list with
  | nil =>
    intro acc R hsort hsub h
    rw [stack_keys_go] at h
    by_cases hemp : acc.isEmpty
    · rw [if_pos hemp] at h
      cases h
      exact ⟨hsortU, fun k hk => hk⟩
    · rw [if_neg hemp] at h
      cases h
      exact ⟨hsort, hsub⟩
  | cons k rest ih =>
    intro acc R hsort hsub h
    by_cases hck : containsKey m k
    · simp only [stack_keys_go, hck, if_true] at h
      refine ih _ R (pairwise_insertSorted hsort) ?_ h
      intro x hx
      rcases mem_insertSorted.mp hx with rfl | hx2
      · exact containsKey_iff_mem.mp hck
      · exact hsub x hx2
    · simp only [stack_keys_go, hck, if_false] at h
      cases h

theorem stack_keys_props {m : List (String × Stack)} {sel R : List String}
    (hsortU : SortedKeys (m.map Prod.fst))
    (h : stack_keys m sel = .ok R) :
    SortedKeys R ∧ ∀ k ∈ R, k ∈ m.map Prod.fst :=
  stack_keys_go_props m hsortU sel [] R (List.Pairwise.nil)
    (fun k hk => absurd hk (List.not_mem_nil k)) h

/-! ### Correctness of the topological placement -/

/-- Ordering invariant of a placement trace (most recently placed first):
every in-set edge of an entry points into the entries placed before it. -/
def OrdInv (edgeOf : Stack → List String) (m : List (String × Stack))
    (keys : List String) : List String → Prop
  | [] => True
  | k :: rest => (∀ d ∈ edgeOf (getStack m k), d ∈ keys → d ∈ rest) ∧
      OrdInv edgeOf m keys rest

/-- Invariant tying the placement state to its trace. -/
def PlaceInv (edgeOf : Stack → List String) (m : List (String × Stack))
    (keys : List String) (st : List Stack × List String) : Prop :=
  st.1 = st.2.reverse.map (getStack m) ∧ st.2.Nodup ∧
  (∀ k ∈ st.2, k ∈ keys) ∧ OrdInv edgeOf m keys st.2

theorem placeable_mono {edgeOf : Stack → List String}
    {m : List (String × Stack)} {keys a a' : List String} (hsub : a ⊆ a')
    {u : String} (h : placeable edgeOf m keys a u = true) :
    placeable edgeOf m keys a' u = true := by
  rw [placeable, List.all_eq_true] at h ⊢
  intro d hd
  have h2 := h d hd
  simp only [Bool.or_eq_true, decide_eq_true_eq, Bool.not_eq_true',
    decide_eq_false_iff_not] at h2 ⊢
  tauto

theorem place_pass_added_sfx (edgeOf : Stack → List String)
    (m : List (String × Stack)) (keys : List String) :
    ∀ (visit : List String) (st : List Stack × List String),
      ∃ delta, (place_pass edgeOf m keys visit st).2 = delta ++ st.2 := by
  intro visit
  induction visit with
  | nil => intro st; exact ⟨[], rfl⟩
  | cons k vis ih =>
    intro st
    by_cases h1 : k ∈ st.2
    · simp only [place_pass, h1, if_true]
      exact ih st
    · by_cases h2 : placeable edgeOf m keys st.2 k
      · simp only [place_pass, h1, if_false, h2, if_true]
        obtain ⟨delta, hdelta⟩ := ih (st.1 ++ [getStack m k], k :: st.2)
        exact ⟨delta ++ [k], by rw [hdelta]; simp⟩
      · simp only [place_pass, h1, if_false, h2]
        exact ih st

theorem place_pass_added_sub (edgeOf : Stack → List String)
    (m : List (String × Stack)) (keys : List String)
    (visit : List String) (st : List Stack × List String) :
    st.2 ⊆ (place_pass edgeOf m keys visit st).2 := by
  obtain ⟨delta, hdelta⟩ := place_pass_added_sfx edgeOf m keys visit st
  rw [hdelta]
  exact fun a ha => List.mem_append_right delta ha

theorem place_pass_mem {edgeOf : Stack → List String}
    {m : List (String × Stack)} {keys : List String} (u : String)
    (added0 : List String)
    (hpl : placeable edgeOf m keys added0 u = true) :
    ∀ (visit : List String) (st : List Stack × List String),
      u ∈ visit → added0 ⊆ st.2 →
      u ∈ (place_pass edgeOf m keys visit st).2 := by
  intro visit
  induction visit with
  | nil =>
    intro st hu
    cases hu
  | cons k vis ih =>
    intro st hu hsub
    by_cases h1 : k ∈ st.2
    · simp only [place_pass, h1, if_true]
      rcases List.mem_cons.mp hu with rfl | hu2
      · exact place_pass_added_sub edgeOf m keys vis st h1
      · exact ih st hu2 hsub
    · by_cases h2 : placeable edgeOf m keys st.2 k
      · simp only [place_pass, h1, if_false, h2, if_true]
        rcases List.mem_cons.mp hu with rfl | hu2
        · exact place_pass_added_sub edgeOf m keys vis _
            (List.mem_cons_self u st.2)
        · exact ih _ hu2 (fun a ha => List.mem_cons_of_mem k (hsub ha))
      · simp only [place_pass, h1, if_false, h2]
        rcases List.mem_cons.mp hu with rfl | hu2
        · exact absurd (placeable_mono hsub hpl) h2
        · exact ih st hu2 hsub

theorem place_pass_inv {edgeOf : Stack → List String}
    {m : List (String × Stack)} {keys : List String} :
    ∀ (visit : List String) (st : List Stack × List String),
      (∀ v ∈ visit, v ∈ keys) → PlaceInv edgeOf m keys st →
      PlaceInv edgeOf m keys (place_pass edgeOf m keys visit st) := by
  intro visit
  induction visit with
  | nil => intro st _ hinv; exact hinv
  | cons k vis ih =>
    intro st hvisit hinv
    obtain ⟨hout, hnd, hsub, hord⟩ := hinv
    by_cases h1 : k ∈ st.2
    · simp only [place_pass, h1, if_true]
      exact ih st (fun v hv => hvisit v (List.mem_cons_of_mem k hv))
        ⟨hout, hnd, hsub, hord⟩
    · by_cases h2 : placeable edgeOf m keys st.2 k
      · simp only [place_pass, h1, if_false, h2, if_true]
        refine ih _ (fun v hv => hvisit v (List.mem_cons_of_mem k hv)) ?_
        refine ⟨?_, List.nodup_cons.mpr ⟨h1, hnd⟩, ?_, ?_⟩
        · show st.1 ++ [getStack m k] = (k :: st.2).reverse.map (getStack m)
          rw [List.reverse_cons, List.map_append, ← hout]
          rfl
        · intro x hx
          rcases List.mem_cons.mp hx with rfl | hx2
          · exact hvisit x (List.mem_cons_self x vis)
          · exact hsub x hx2
        · refine ⟨?_, hord⟩
          intro d hd hdk
          rw [placeable, List.all_eq_true] at h2
          have h3 := h2 d hd
          simp only [Bool.or_eq_true, decide_eq_true_eq, Bool.not_eq_true',
            decide_eq_false_iff_not] at h3
          tauto
      · simp only [place_pass, h1, if_false, h2]
        exact ih st (fun v hv => hvisit v (List.mem_cons_of_mem k hv))
          ⟨hout, hnd, hsub, hord⟩

theorem place_pass_progress {edgeOf : Stack → List String}
    {m : List (String × Stack)} {keys : List String} {rank : String → Nat}
    (hnd : keys.Nodup)
    (hrank : ∀ u ∈ keys, ∀ d ∈ edgeOf (getStack m u), d ∈ keys → rank d < rank u)
    (st : List Stack × List String) (hinv : PlaceInv edgeOf m keys st)
    (hlt : st.2.length < keys.length) :
    st.2.length < (place_pass edgeOf m keys keys.reverse st).2.length := by
  obtain ⟨hout, hnda, hsub, hord⟩ := hinv
  have hsubF : st.2.toFinset ⊆ keys.toFinset := by
    intro x hx
    exact List.mem_toFinset.mpr (hsub x (List.mem_toFinset.mp hx))
  have hcard1 : st.2.toFinset.card = st.2.length := List.toFinset_card_of_nodup hnda
  have hcard2 : keys.toFinset.card = keys.length := List.toFinset_card_of_nodup hnd
  have hne : (keys.toFinset \ st.2.toFinset).Nonempty := by
    rw [← Finset.card_pos, Finset.card_sdiff hsubF]
    omega
  obtain ⟨u, hu, humin⟩ := Finset.exists_min_image _ rank hne
  rw [Finset.mem_sdiff, List.mem_toFinset, List.mem_toFinset] at hu
  obtain ⟨huk, hua⟩ := hu
  have hpl : placeable edgeOf m keys st.2 u = true := by
    rw [placeable, List.all_eq_true]
    intro d hd
    simp only [Bool.or_eq_true, decide_eq_true_eq, Bool.not_eq_true',
      decide_eq_false_iff_not]
    by_cases hdk : d ∈ keys
    · left
      by_contra hda
      have hdmem : d ∈ keys.toFinset \ st.2.toFinset := by
        rw [Finset.mem_sdiff, List.mem_toFinset, List.mem_toFinset]
        exact ⟨hdk, hda⟩
      have h1 := humin d hdmem
      have h2 := hrank u huk d hd hdk
      omega
    · right
      exact hdk
  have humem : u ∈ (place_pass edgeOf m keys keys.reverse st).2 :=
    place_pass_mem u st.2 hpl keys.reverse st (List.mem_reverse.mpr huk)
      (fun a ha => ha)
  obtain ⟨delta, hdelta⟩ := place_pass_added_sfx edgeOf m keys keys.reverse st
  rw [hdelta] at humem ⊢
  rcases List.mem_append.mp humem with hud | hud
  · cases delta with
    | nil => cases hud
    | cons x xs => simp [List.length_append]; omega
  · exact absurd hud hua

theorem place_loop_spec {edgeOf : Stack → List String}
    {m : List (String × Stack)} {keys : List String} {rank : String → Nat}
    (hnd : keys.Nodup)
    (hrank : ∀ u ∈ keys, ∀ d ∈ edgeOf (getStack m u), d ∈ keys → rank d < rank u) :
    ∀ (fuel : Nat) (st : List Stack × List String),
      PlaceInv edgeOf m keys st →
      keys.length ≤ st.2.length + fuel →
      ∃ added, place_loop edgeOf m keys fuel st = added.reverse.map (getStack m) ∧
        added.Nodup ∧ (∀ k, k ∈ added ↔ k ∈ keys) ∧ OrdInv edgeOf m keys added := by
  intro fuel
  induction fuel with
  | zero =>
    intro st hinv hfuel
    obtain ⟨hout, hnda, hsub, hord⟩ := hinv
    refine ⟨st.2, hout, hnda, ?_, hord⟩
    exact mem_iff_of_nodup_subset_length hnda hnd hsub (by omega)
  | succ fuel ih =>
    intro st hinv hfuel
    obtain ⟨hout, hnda, hsub, hord⟩ := hinv
    have hlenout : st.1.length = st.2.length := by
      rw [hout, List.length_map, List.length_reverse]
    by_cases hdone : st.1.length = keys.length
    · simp only [place_loop, hdone, if_true]
      refine ⟨st.2, hout, hnda, ?_, hord⟩
      exact mem_iff_of_nodup_subset_length hnda hnd hsub (by omega)
    · simp only [place_loop, hdone, if_false]
      have hle : st.2.length ≤ keys.length :=
        nodup_length_le_of_subset hnda hnd hsub
      have hlt : st.2.length < keys.length := by omega
      have hprog := place_pass_progress hnd hrank st ⟨hout, hnda, hsub, hord⟩ hlt
      have hinv2 := place_pass_inv keys.reverse st
        (fun v hv => List.mem_reverse.mp hv) ⟨hout, hnda, hsub, hord⟩
      exact ih _ hinv2 (by omega)

theorem map_decomp {α β : Type} (f : α → β) :
    ∀ (l : List α) (pre : List β) (x : β) (suf : List β),
      l.map f = pre ++ x :: suf →
      ∃ P k S, l = P ++ k :: S ∧ P.map f = pre ∧ f k = x ∧ S.map f = suf := by
  intro l
  induction l with
  | nil =>
    intro pre x suf h
    rw [List.map_nil] at h
    cases pre <;> cases h
  | cons a l2 ih =>
    intro pre x suf h
    rw [List.map_cons] at h
    cases pre with
    | nil =>
      rw [List.nil_append] at h
      injection h with h1 h2
      exact ⟨[], a, l2, rfl, rfl, h1, h2⟩
    | cons p pre2 =>
      rw [List.cons_append] at h
      injection h with h1 h2
      obtain ⟨P, k, S, hl, hP, hk, hS⟩ := ih pre2 x suf h2
      exact ⟨a :: P, k, S, by rw [hl, List.cons_append],
        by rw [List.map_cons, hP, h1], hk, hS⟩

theorem ordInv_split {edgeOf : Stack → List String}
    {m : List (String × Stack)} {keys : List String} :
    ∀ (A : List String) {l : List String} {k : String} {B : List String},
      OrdInv edgeOf m keys l → l = A ++ k :: B →
      ∀ d ∈ edgeOf (getStack m k), d ∈ keys → d ∈ B := by
  intro A
  induction A with
  | nil =>
    intro l k B hord hl
    subst hl
    exact hord.1
  | cons a A2 ih =>
    intro l k B hord hl
    subst hl
    exact ih hord.2 rfl

theorem place_correct {edgeOf : Stack → List String}
    {m : List (String × Stack)} {keys : List String} {rank : String → Nat}
    (hnd : keys.Nodup)
    (hcons : ∀ k ∈ keys, (getStack m k).key = k)
    (hrank : ∀ u ∈ keys, ∀ d ∈ edgeOf (getStack m u), d ∈ keys → rank d < rank u) :
    (∀ k, (∃ s ∈ place_loop edgeOf m keys (keys.length + 1) ([], []), s.key = k)
      ↔ k ∈ keys) ∧
    ((place_loop edgeOf m keys (keys.length + 1) ([], [])).map Stack.key).Nodup ∧
    (∀ pre s suf,
      place_loop edgeOf m keys (keys.length + 1) ([], []) = pre ++ s :: suf →
      ∀ d ∈ edgeOf s, d ∈ keys → ∃ t ∈ pre, t.key = d) := by
  obtain ⟨added, hout, hnda, hiff, hord⟩ := place_loop_spec hnd hrank
    (keys.length + 1) ([], [])
    ⟨rfl, List.nodup_nil, fun k hk => absurd hk (List.not_mem_nil k), trivial⟩
    (by simp)
  have hmapkey : (place_loop edgeOf m keys (keys.length + 1) ([], [])).map Stack.key
      = added.reverse := by
    rw [hout, List.map_map]
    have : ∀ x ∈ added.reverse, (Stack.key ∘ getStack m) x = id x := by
      intro x hx
      exact hcons x ((hiff x).mp (List.mem_reverse.mp hx))
    rw [List.map_congr_left this, List.map_id]
  refine ⟨?_, ?_, ?_⟩
  · intro k
    constructor
    · rintro ⟨s, hs, rfl⟩
      have : s.key ∈ (place_loop edgeOf m keys (keys.length + 1) ([], [])).map
          Stack.key := List.mem_map_of_mem Stack.key hs
      rw [hmapkey, List.mem_reverse] at this
      exact (hiff s.key).mp this
    · intro hk
      have h2 : k ∈ added.reverse := List.mem_reverse.mpr ((hiff k).mpr hk)
      rw [← hmapkey] at h2
      obtain ⟨s, hs, hkey⟩ := List.mem_map.mp h2
      exact ⟨s, hs, hkey⟩
  · rw [hmapkey]
    exact List.nodup_reverse.mpr hnda
  · intro pre s suf hsplit d hd hdk
    rw [hout] at hsplit
    obtain ⟨P, k, S, hl, hP, hk, hS⟩ := map_decomp (getStack m)
      added.reverse pre s suf hsplit
    have hadded : added = S.reverse ++ k :: P.reverse := by
      have h1 : added.reverse.reverse = (P ++ k :: S).reverse := by rw [hl]
      rw [List.reverse_reverse] at h1
      rw [h1, List.reverse_append, List.reverse_cons, List.append_assoc]
      simp
    have hdP : d ∈ P.reverse := by
      refine ordInv_split S.reverse hord hadded d ?_ hdk
      rw [hk]
      exact hd
    have hdkeys : d ∈ keys := hdk
    refine ⟨getStack m d, ?_, hcons d hdkeys⟩
    rw [← hP]
    exact List.mem_map_of_mem (getStack m) (List.mem_reverse.mp hdP)

theorem place_pass_out_append (edgeOf : Stack → List String)
    (m : List (String × Stack)) (keys : List String) :
    ∀ (visit : List String) (out : List Stack) (added : List String),
      place_pass edgeOf m keys visit (out, added) =
        (out ++ (place_pass edgeOf m keys visit ([], added)).1,
         (place_pass edgeOf m keys visit ([], added)).2) := by
  intro visit
  induction visit with
  | nil => intro out added; simp [place_pass]
  | cons k vis ih =>
    intro out added
    by_cases h1 : k ∈ added
    · simp only [place_pass, h1, if_true]
      exact ih out added
    · by_cases h2 : placeable edgeOf m keys added k
      · simp only [place_pass, h1, if_false, h2, if_true, List.nil_append]
        rw [ih (out ++ [getStack m k]) (k :: added),
          ih [getStack m k] (k :: added)]
        simp
      · simp only [place_pass, h1, if_false, h2]
        exact ih out added

theorem place_pass_pre_eq (edgeOf : Stack → List String)
    (m : List (String × Stack)) (keys : List String) :
    ∀ (visit : List String) (out : List Stack) (added : List String),
      place_pass_pre edgeOf m keys visit (out, added) =
        ((place_pass edgeOf m keys visit ([], added)).1.reverse ++ out,
         (place_pass edgeOf m keys visit ([], added)).2) := by
  intro visit
  induction visit with
  | nil => intro out added; simp [place_pass, place_pass_pre]
  | cons k vis ih =>
    intro out added
    by_cases h1 : k ∈ added
    · simp only [place_pass, place_pass_pre, h1, if_true]
      exact ih out added
    · by_cases h2 : placeable edgeOf m keys added k
      · simp only [place_pass, place_pass_pre, h1, if_false, h2, if_true,
          List.nil_append]
        rw [ih (getStack m k :: out) (k :: added),
          place_pass_out_append edgeOf m keys vis [getStack m k] (k :: added)]
        simp
      · simp only [place_pass, place_pass_pre, h1, if_false, h2]
        exact ih out added

theorem place_loop_pre_eq (edgeOf : Stack → List String)
    (m : List (String × Stack)) (keys : List String) :
    ∀ (fuel : Nat) (out : List Stack) (added : List String),
      place_loop_pre edgeOf m keys fuel (out, added) =
        (place_loop edgeOf m keys fuel (out.reverse, added)).reverse := by
  intro fuel
  induction fuel with
  | zero => intro out added; simp [place_loop, place_loop_pre]
  | succ fuel ih =>
    intro out added
    have hlen : out.reverse.length = out.length := List.length_reverse out
    by_cases hdone : out.length = keys.length
    · simp only [place_loop, place_loop_pre, hdone, hlen, if_true,
        List.reverse_reverse]
    · have hdone2 : ¬ out.reverse.length = keys.length := by
        rw [hlen]; exact hdone
      simp only [place_loop, place_loop_pre, hdone, hdone2, if_false]
      rw [place_pass_pre_eq edgeOf m keys keys.reverse out added,
        place_pass_out_append edgeOf m keys keys.reverse out.reverse added,
        ih]
      congr 1
      simp

theorem stacks_with_dependants_reverse_eq (m : List (String × Stack))
    (list : List String) (out : List Stack)
    (h : stacks_with_dependants m list = .ok out) :
    ∃ keys0, stack_keys m list = .ok keys0 ∧
      out.reverse = place_loop (fun s => s.dependants) m
        (expandSelection (fun s => s.dependants) m keys0)
        ((expandSelection (fun s => s.dependants) m keys0).length + 1) ([], []) := by
  unfold stacks_with_dependants at h
  cases hsk : stack_keys m list with
  | error e => rw [hsk] at h; cases h
  | ok keys0 =>
    rw [hsk] at h
    simp only [Except.ok.injEq] at h
    refine ⟨keys0, rfl, ?_⟩
    rw [← h, place_loop_pre_eq]
    simp

theorem deserialize_dependants_spec {raw mf : List (String × Stack)}
    (h : deserialize_stacks raw = .ok mf) :
    ∀ a b, b ∈ (getStack mf a).dependants ↔
      (b ∈ mf.map Prod.fst ∧ a ∈ (getStack mf b).dependencies ∧
        containsKey mf a = true) := by
  obtain ⟨hfst, hkcf, hvrf, hncf, hdef⟩ := deserialize_ok_props h
  have hkc0 : KeysConsistent (assignKeys raw) := keysConsistent_assignKeys raw
  intro a b
  have hdep := deserialize_go_dependants ((assignKeys raw).length + 1)
    ((assignKeys raw).map Prod.fst) (assignKeys raw) mf hkc0 (fun k hk => hk)
    h a b
  rw [getStack_assignKeys_dependants] at hdep
  have hkeysEq : (assignKeys raw).map Prod.fst = mf.map Prod.fst := by
    rw [assignKeys_map_fst, hfst]
  rw [hdep, hkeysEq, hdef.getStack_dependencies b, hdef.containsKey_eq a]
  simp

/-- C1: forward-closure ordering. For every successfully loaded configuration
(`deserialize_stacks raw = .ok mf`, raw keys strictly ascending as in a
BTreeMap) and every valid selection (one on which `stacks_with_dependencies`
succeeds), the returned sequence contains each key of the forward-closure-
expanded working set `EdgeClosure (dependencies) mf R` exactly once (`R` is
the resolved selection), and for every stack in the sequence every one of
its dependencies that is also in the working set appears strictly earlier. -/
theorem stacks_with_dependencies_correct
    (raw mf : List (String × Stack)) (sel : List String) (out : List Stack)
    (hsort : SortedKeys (raw.map Prod.fst))
    (hload : deserialize_stacks raw = .ok mf)
    (hout : stacks_with_dependencies mf sel = .ok out) :
    ∃ R, stack_keys mf sel = .ok R ∧
      (∀ k, (∃ s ∈ out, s.key = k) ↔
        EdgeClosure (fun s => s.dependencies) mf R k) ∧
      (out.map Stack.key).Nodup ∧
      (∀ pre s suf, out = pre ++ s :: suf → ∀ d ∈ s.dependencies,
        EdgeClosure (fun s => s.dependencies) mf R d →
        ∃ t ∈ pre, t.key = d) := by
  obtain ⟨hfst, hkcf, hvrf, hncf, hdef⟩ := deserialize_ok_props hload
  have hsortU : SortedKeys (mf.map Prod.fst) := by rw [hfst]; exact hsort
  unfold stacks_with_dependencies at hout
  cases hsk : stack_keys mf sel with
  | error e => rw [hsk] at hout; cases hout
  | ok R =>
    rw [hsk] at hout
    simp only [Except.ok.injEq] at hout
    obtain ⟨hRsort, hRuniv⟩ := stack_keys_props hsortU hsk
    have hvalid : EdgesValid (fun s => s.dependencies) mf := by
      intro k hk d hd
      have hlk : lookupStack mf k = some (getStack mf k) := lookup_getStack hk
      exact containsKey_iff_mem.mp (hvrf k (getStack mf k) hlk d hd)
    obtain ⟨hKiff, hKsort, hKuniv⟩ :=
      expandSelection_spec (fun s => s.dependencies) mf R hvalid hRsort hRuniv
        hsortU
    have hKnd : (expandSelection (fun s => s.dependencies) mf R).Nodup :=
      sortedKeys_nodup hKsort
    obtain ⟨rank, hrk⟩ := exists_rank_of_noCycle hncf
    have hcons : ∀ k ∈ expandSelection (fun s => s.dependencies) mf R,
        (getStack mf k).key = k :=
      fun k hk => getStack_key_of_mem hkcf (hKuniv k hk)
    have hrank : ∀ u ∈ expandSelection (fun s => s.dependencies) mf R,
        ∀ d ∈ (getStack mf u).dependencies,
          d ∈ expandSelection (fun s => s.dependencies) mf R → rank d < rank u := by
      intro u hu d hd _
      exact hrk u d ⟨getStack mf u, lookup_getStack (hKuniv u hu), hd⟩
    obtain ⟨p1, p2, p3⟩ := place_correct hKnd hcons hrank
    refine ⟨R, rfl, ?_, ?_, ?_⟩
    · intro k
      rw [← hKiff k, ← hout]
      exact p1 k
    · rw [← hout]
      exact p2
    · intro pre s suf hsplit d hd hcl
      rw [← hout] at hsplit
      exact p3 pre s suf hsplit d hd ((hKiff d).mpr hcl)

theorem le_foldr_max (x : Nat) : ∀ (l : List Nat), x ∈ l → x ≤ l.foldr max 0 := by
  intro l
  induction l with
  | nil => intro h; cases h
  | cons y ys ih =>
    intro h
    rcases List.mem_cons.mp h with rfl | h2
    · exact le_max_left _ _
    · exact le_trans (ih h2) (le_max_right _ _)

/-- C4: teardown-safe ordering. For every successfully loaded configuration
and every valid selection, the reverse of the sequence returned by
`stacks_with_dependants` (the backward-closure ordering reversed by
down/kill/pause/rm) contains each key of the backward-closure-expanded
working set exactly once and places every dependant of a stack that is in
the working set strictly earlier than that stack. -/
theorem stacks_with_dependants_teardown_correct
    (raw mf : List (String × Stack)) (sel : List String) (out : List Stack)
    (hsort : SortedKeys (raw.map Prod.fst))
    (hload : deserialize_stacks raw = .ok mf)
    (hout : stacks_with_dependants mf sel = .ok out) :
    ∃ R, stack_keys mf sel = .ok R ∧
      (∀ k, (∃ s ∈ out.reverse, s.key = k) ↔
        EdgeClosure (fun s => s.dependants) mf R k) ∧
      ((out.reverse).map Stack.key).Nodup ∧
      (∀ pre s suf, out.reverse = pre ++ s :: suf → ∀ d ∈ s.dependants,
        EdgeClosure (fun s => s.dependants) mf R d →
        ∃ t ∈ pre, t.key = d) := by
  obtain ⟨hfst, hkcf, hvrf, hncf, hdef⟩ := deserialize_ok_props hload
  have hspec := deserialize_dependants_spec hload
  have hsortU : SortedKeys (mf.map Prod.fst) := by rw [hfst]; exact hsort
  obtain ⟨R, hsk, hrev⟩ := stacks_with_dependants_reverse_eq mf sel out hout
  obtain ⟨hRsort, hRuniv⟩ := stack_keys_props hsortU hsk
  have hvalid : EdgesValid (fun s => s.dependants) mf := by
    intro k _ d hd
    exact ((hspec k d).mp hd).1
  obtain ⟨hKiff, hKsort, hKuniv⟩ :=
    expandSelection_spec (fun s => s.dependants) mf R hvalid hRsort hRuniv hsortU
  have hKnd : (expandSelection (fun s => s.dependants) mf R).Nodup :=
    sortedKeys_nodup hKsort
  obtain ⟨rank, hrk⟩ := exists_rank_of_noCycle hncf
  have hcons : ∀ k ∈ expandSelection (fun s => s.dependants) mf R,
      (getStack mf k).key = k :=
    fun k hk => getStack_key_of_mem hkcf (hKuniv k hk)
  have hbound : ∀ x ∈ mf.map Prod.fst,
      rank x ≤ ((mf.map Prod.fst).map rank).foldr max 0 :=
    fun x hx => le_foldr_max (rank x) _ (List.mem_map_of_mem rank hx)
  have hrank : ∀ u ∈ expandSelection (fun s => s.dependants) mf R,
      ∀ d ∈ (getStack mf u).dependants,
        d ∈ expandSelection (fun s => s.dependants) mf R →
        ((mf.map Prod.fst).map rank).foldr max 0 + 1 - rank d <
          ((mf.map Prod.fst).map rank).foldr max 0 + 1 - rank u := by
    intro u hu d hd hdK
    obtain ⟨hdU, hudeps, _⟩ := (hspec u d).mp hd
    have hedge : depEdge mf d u :=
      ⟨getStack mf d, lookup_getStack hdU, hudeps⟩
    have h1 : rank u < rank d := hrk d u hedge
    have h2 : rank u ≤ ((mf.map Prod.fst).map rank).foldr max 0 :=
      hbound u (hKuniv u hu)
    have h3 : rank d ≤ ((mf.map Prod.fst).map rank).foldr max 0 :=
      hbound d hdU
    omega
  obtain ⟨p1, p2, p3⟩ := place_correct hKnd hcons hrank
  refine ⟨R, hsk, ?_, ?_, ?_⟩
  · intro k
    rw [← hKiff k, hrev]
    exact p1 k
  · rw [hrev]
    exact p2
  · intro pre s suf hsplit d hd hcl
    rw [hrev] at hsplit
    exact p3 pre s suf hsplit d hd ((hKiff d).mpr hcl)

/-- Witness for C1 at scenario A: selecting `foo` yields the order
`baz, bar, foo`, a permutation of the forward closure with dependencies
first. -/
theorem stacks_with_dependencies_correct_witness :
    ∃ R, stack_keys mA ["foo"] = .ok R ∧
      (∀ k, (∃ s ∈ [stackBazA, stackBarA, stackFooA], s.key = k) ↔
        EdgeClosure (fun s => s.dependencies) mA R k) ∧
      (([stackBazA, stackBarA, stackFooA].map Stack.key).Nodup) ∧
      (∀ pre s suf, [stackBazA, stackBarA, stackFooA] = pre ++ s :: suf →
        ∀ d ∈ s.dependencies, EdgeClosure (fun s => s.dependencies) mA R d →
        ∃ t ∈ pre, t.key = d) :=
  stacks_with_dependencies_correct rawA mA ["foo"]
    [stackBazA, stackBarA, stackFooA] (by decide) (by rfl) (by rfl)

/-- Witness for C4 at scenario A: selecting `baz` yields the backward-closure
order `baz, bar, foo`; its reverse `foo, bar, baz` places every dependant
before its dependency. -/
theorem stacks_with_dependants_teardown_correct_witness :
    ∃ R, stack_keys mA ["baz"] = .ok R ∧
      (∀ k, (∃ s ∈ [stackBazA, stackBarA, stackFooA].reverse, s.key = k) ↔
        EdgeClosure (fun s => s.dependants) mA R k) ∧
      (([stackBazA, stackBarA, stackFooA].reverse.map Stack.key).Nodup) ∧
      (∀ pre s suf, [stackBazA, stackBarA, stackFooA].reverse = pre ++ s :: suf →
        ∀ d ∈ s.dependants, EdgeClosure (fun s => s.dependants) mA R d →
        ∃ t ∈ pre, t.key = d) :=
  stacks_with_dependants_teardown_correct rawA mA ["baz"]
    [stackBazA, stackBarA, stackFooA] (by decide) (by rfl) (by rfl)
